import Mathlib

/-!
Verification of the greedy genetic-map reducer `min_map.py`.

The program holds the map as a doubly-linked ordered sequence of entries,
computes for every interior entry the error made when interpolating it
linearly from its two neighbors, and then greedily deletes entries whose
error is below a tolerance, re-validating previously deleted entries after
every deletion.

The embedding below represents the linked list by the sorted list `alive` of
indices of the entries that are still linked: for every node that is still
in the chain, its `left` and `right` pointers equal its predecessor and
successor in `alive`, and splicing a node out (`left.right = right;
right.left = left`) is exactly the removal of its index from `alive`.  The
per-node mutable fields `error` and `rightDel` are total maps from indices,
and the cursor and skip marker of the deletion loop are optional indices.
Numbers are exact rationals (the Python floats are modelled exactly);
runtime failures of the Python code (attribute access on `None`, assertion
failures, `TypeError`, `ZeroDivisionError`) are explicit `Except` errors.
-/

attribute [local semireducible] Rat.add Rat.mul Rat.sub Rat.inv

namespace MinMap

instance instDecEqExcept {ε α : Type} [DecidableEq ε] [DecidableEq α] :
    DecidableEq (Except ε α) := fun x y =>
  match x, y with
  | .error a, .error b =>
    if h : a = b then .isTrue (by rw [h]) else .isFalse (by simp [h])
  | .ok a, .ok b =>
    if h : a = b then .isTrue (by rw [h]) else .isFalse (by simp [h])
  | .error _, .ok _ => .isFalse (by simp)
  | .ok _, .error _ => .isFalse (by simp)

/-- One entry of the genetic map, as built by `MapEntry.__init__`: the
physical position, the genetic position, and the optional second genetic
position used by sex-specific maps (`None` in sex-averaged mode). -/
structure MapEntryData where
  physPos : ℤ
  genetPos : ℚ
  genetPos2 : Option ℚ := none
deriving DecidableEq

/-- Runtime failures of the Python program, made explicit by the embedding:
`attrNone` is an `AttributeError` from dereferencing `None`, `assertFail` an
`AssertionError`, `typeErr` a `TypeError` from arithmetic on `None`, and
`zeroDiv` a `ZeroDivisionError`. -/
inductive Crash where
  | attrNone
  | assertFail
  | typeErr
  | zeroDiv
deriving DecidableEq

/-- The function `error(left, target, right)` of `min_map.py`: the error made
when `target` is interpolated linearly from `left` and `right`.  It first
computes the interpolation fraction (raising `ZeroDivisionError` when the
two physical positions coincide), then branches on the sex-specific mode of
`left` and `right` exactly as the Python code does, asserting that both
sides agree. -/
def error (left target right : MapEntryData) : Except Crash ℚ :=
  if (right.physPos : ℚ) - (left.physPos : ℚ) = 0 then .error .zeroDiv else
  let interpFrac : ℚ := ((target.physPos : ℚ) - (left.physPos : ℚ)) /
                        ((right.physPos : ℚ) - (left.physPos : ℚ))
  let interpGenet : ℚ := left.genetPos + interpFrac * (right.genetPos - left.genetPos)
  match left.genetPos2, right.genetPos2 with
  | none, none => .ok |target.genetPos - interpGenet|
  | none, some _ => .error .assertFail
  | some _, none => .error .assertFail
  | some lg2, some rg2 =>
    let interpGenet2 : ℚ := lg2 + interpFrac * (rg2 - lg2)
    match target.genetPos2 with
    | none => .error .typeErr
    | some tg2 => .ok (max |target.genetPos - interpGenet| |tg2 - interpGenet2|)

/-- The state of `main` during the reduction pass over an input of `n`
entries: the indices still linked into the chain (in increasing order), the
per-node deletion sets `rightDel`, the per-node stored `error` values, the
cursor `cur_entry`, and the skip marker `first_skipped`. -/
structure Cfg (n : Nat) where
  alive : List (Fin n)
  rightDel : Fin n → List (Fin n)
  err : Fin n → ℚ
  cur : Option (Fin n)
  firstSkipped : Option (Fin n)

/-- The `right` pointer of node `i`: the first element of `alive` beyond `i`
(`alive` is kept sorted, so this is the successor of `i` in the chain). -/
def nextAlive {n : Nat} (alive : List (Fin n)) (i : Fin n) : Option (Fin n) :=
  (alive.filter (fun j => i < j)).head?

/-- The `left` pointer of node `i`: the last element of `alive` before `i`. -/
def prevAlive {n : Nat} (alive : List (Fin n)) (i : Fin n) : Option (Fin n) :=
  (alive.filter (fun j => j < i)).getLast?

/-- The function `update_error(entry)` of `min_map.py`: if node `i` has both
neighbors, store in `entry.error` the interpolation error of `i` from them;
otherwise leave the stored error untouched. -/
def update_error {n : Nat} (ents : Fin n → MapEntryData) (cfg : Cfg n) (i : Fin n) :
    Except Crash (Cfg n) :=
  match prevAlive cfg.alive i, nextAlive cfg.alive i with
  | some l, some r =>
    match error (ents l) (ents i) (ents r) with
    | .error c => .error c
    | .ok v => .ok { cfg with err := Function.update cfg.err i v }
  | _, _ => .ok cfg

/-- The cascade re-validation loop of `main`
(`for prevDel in (cur_entry.left.rightDel | cur_entry.rightDel): ...`):
returns `true` when some previously deleted entry would, after the deletion
of the current node, be interpolated from `lf` and `r` with error at least
the tolerance (so the deletion must be abandoned).  Calling `error` with the
`None` right neighbor is the Python `AttributeError`. -/
def cascadeLoop {n : Nat} (ents : Fin n → MapEntryData) (tol : ℚ) (lf : Fin n)
    (r : Option (Fin n)) : List (Fin n) → Except Crash Bool
  | [] => .ok false
  | d :: ds =>
    match r with
    | none => .error .attrNone
    | some rt =>
      match error (ents lf) (ents d) (ents rt) with
      | .error c => .error c
      | .ok v => if tol ≤ v then .ok true else cascadeLoop ents tol lf r ds

/-- One iteration of the `while cur_entry != None` loop of `main`, for the
cursor at node `c`: keep the node when its error is at least the tolerance;
otherwise skip it (recording the skip marker) when a neighbor has strictly
smaller error; otherwise re-validate the previously deleted entries and
either abandon the deletion or splice the node out, refresh both neighbors'
errors, merge the deletion sets, and choose the next cursor position. -/
def stepOnce {n : Nat} (ents : Fin n → MapEntryData) (tol : ℚ) (cfg : Cfg n) (c : Fin n) :
    Except Crash (Cfg n) :=
  let r := nextAlive cfg.alive c
  if tol ≤ cfg.err c then
    .ok { cfg with cur := r }
  else
    let l := prevAlive cfg.alive c
    let leNeighbor : Option (Fin n) → Bool := fun s =>
      match s with
      | none => true
      | some x => decide (cfg.err c ≤ cfg.err x)
    if ¬ (leNeighbor l ∧ leNeighbor r) then
      let fs' : Option (Fin n) :=
        match cfg.firstSkipped with
        | none => some c
        | some s => some s
      .ok { cfg with cur := r, firstSkipped := fs' }
    else
      match l with
      | none => .error .attrNone
      | some lf =>
        match cascadeLoop ents tol lf r (cfg.rightDel lf ++ cfg.rightDel c) with
        | .error cr => .error cr
        | .ok true => .ok { cfg with cur := r }
        | .ok false =>
          match r with
          | none => .error .attrNone
          | some rt =>
            let cfg1 : Cfg n := { cfg with alive := cfg.alive.erase c }
            match update_error ents cfg1 lf with
            | .error cr => .error cr
            | .ok cfg2 =>
              match update_error ents cfg2 rt with
              | .error cr => .error cr
              | .ok cfg3 =>
                let merged : List (Fin n) := (cfg3.rightDel lf ++ cfg3.rightDel c) ++ [c]
                let cfg4 : Cfg n :=
                  { cfg3 with rightDel := Function.update cfg3.rightDel lf merged }
                match cfg.firstSkipped with
                | some fs => .ok { cfg4 with cur := some fs, firstSkipped := none }
                | none =>
                  if cfg4.err lf < tol then .ok { cfg4 with cur := some lf }
                  else .ok { cfg4 with cur := some rt }

/-- Run at most `k` iterations of the reduction loop; stop (returning the
final state) as soon as the cursor is `None`. -/
def runN {n : Nat} (ents : Fin n → MapEntryData) (tol : ℚ) : Nat → Cfg n → Except Crash (Cfg n)
  | 0, cfg => .ok cfg
  | k+1, cfg =>
    match cfg.cur with
    | none => .ok cfg
    | some c =>
      match stepOnce ents tol cfg c with
      | .error cr => .error cr
      | .ok cfg' => runN ents tol k cfg'

/-- The initial error sweep of `main` (`while cur_entry != None:
update_error(cur_entry); cur_entry = cur_entry.right`), applied to the
listed nodes in order. -/
def initPass {n : Nat} (ents : Fin n → MapEntryData) : Cfg n → List (Fin n) → Except Crash (Cfg n)
  | cfg, [] => .ok cfg
  | cfg, i :: is =>
    match update_error ents cfg i with
    | .error c => .error c
    | .ok cfg' => initPass ents cfg' is

/-- The state of `main` just after reading the map: every node linked in
order, all `rightDel` sets empty, every stored error at the sentinel
`10000`, the cursor at the head, no skip marker. -/
def startCfg (n : Nat) : Cfg n :=
  { alive := List.finRange n
    rightDel := fun _ => []
    err := fun _ => 10000
    cur := (List.finRange n).head?
    firstSkipped := none }

/-- The state of `main` at the start of the deletion loop: the initial error
sweep applied to the start state. -/
def initCfg {n : Nat} (ents : Fin n → MapEntryData) : Except Crash (Cfg n) :=
  initPass ents (startCfg n) (List.finRange n)

/-- Fuel that (as proved below) always suffices for the reduction loop to
reach the `None` cursor or a crash. -/
def fuelBound (n : Nat) : Nat := (n + 1) * (n + 1) + 1

/-- The whole reduction of `main` on `n` entries: the initial error sweep
followed by the deletion loop. -/
def runFull {n : Nat} (ents : Fin n → MapEntryData) (tol : ℚ) : Except Crash (Cfg n) :=
  match initCfg ents with
  | .error c => .error c
  | .ok cfg => runN ents tol (fuelBound n) cfg

/-- Entry accessor for a concrete input list. -/
def entsOfList (l : List MapEntryData) : Fin l.length → MapEntryData :=
  fun i => l.get i

/-- The physical positions surviving in a state, in order: the rows that the
output pass of `main` would print. -/
def outputPositions {n : Nat} (ents : Fin n → MapEntryData) (cfg : Cfg n) : List ℤ :=
  cfg.alive.map (fun i => (ents i).physPos)

/-- The interpolation fraction as the spec words it:
`f = (target.physPos - left.physPos) / (right.physPos - left.physPos)`.
Stated from the spec, for comparison with the code's `error`. -/
def specFrac (left target right : MapEntryData) : ℚ :=
  ((target.physPos : ℚ) - (left.physPos : ℚ)) / ((right.physPos : ℚ) - (left.physPos : ℚ))

/-- The interpolated genetic position as the spec words it:
`interpGenet = left.genetPos + f * (right.genetPos - left.genetPos)`.
Stated from the spec, for comparison with the code's `error`. -/
def specInterp (left target right : MapEntryData) : ℚ :=
  left.genetPos + specFrac left target right * (right.genetPos - left.genetPos)

/-- The input rows of the spec's worked scenario: physical positions
1, 100, 200, 300, 400 with genetic positions 0, 0.1, 0.19, 0.31, 0.40. -/
def scenarioRows : List MapEntryData :=
  [⟨1, 0, none⟩, ⟨100, 1/10, none⟩, ⟨200, 19/100, none⟩,
   ⟨300, 31/100, none⟩, ⟨400, 2/5, none⟩]

/-- The spec's worked scenario as an indexed family. -/
def scenarioEnts : Fin 5 → MapEntryData := fun i => scenarioRows.get (Fin.cast rfl i)

/-- A five-row input on which the reducer is not idempotent (found by
search): positions 5, 6, 40, 54, 57. -/
def idem1Rows : List MapEntryData :=
  [⟨5, 19/5, none⟩, ⟨6, -7/2, none⟩, ⟨40, 2, none⟩, ⟨54, 13/4, none⟩, ⟨57, 2, none⟩]

/-- The non-idempotence input as an indexed family. -/
def idem1Ents : Fin 5 → MapEntryData := fun i => idem1Rows.get (Fin.cast rfl i)

/-- The output that the reducer produces from `idem1Rows` at tolerance
`17/10`: the row at position 40 is deleted. -/
def idem2Rows : List MapEntryData :=
  [⟨5, 19/5, none⟩, ⟨6, -7/2, none⟩, ⟨54, 13/4, none⟩, ⟨57, 2, none⟩]

/-- The first output as an indexed family, used as input of the second run. -/
def idem2Ents : Fin 4 → MapEntryData := fun i => idem2Rows.get (Fin.cast rfl i)

/-- A two-row input (used for the sentinel-crash statements). -/
def twoRows : List MapEntryData := [⟨1, 0, none⟩, ⟨2, 1, none⟩]

/-- The two-row input as an indexed family. -/
def twoEnts : Fin 2 → MapEntryData := fun i => twoRows.get (Fin.cast rfl i)

/-- A four-row input whose physical positions are not strictly increasing
(5, 6, 7, 5) and whose initial sweep nevertheless succeeds; the deletion
loop then divides by the zero physical span when refreshing a neighbor. -/
def unsortedRows : List MapEntryData :=
  [⟨5, 0, none⟩, ⟨6, 1, none⟩, ⟨7, 2, none⟩, ⟨5, 0, none⟩]

/-- The unsorted input as an indexed family. -/
def unsortedEnts : Fin 4 → MapEntryData := fun i => unsortedRows.get (Fin.cast rfl i)

/-- The input contract on physical positions: strictly increasing in the
order the rows were read. -/
def PhysSorted {n : Nat} (ents : Fin n → MapEntryData) : Prop :=
  ∀ i j : Fin n, i < j → (ents i).physPos < (ents j).physPos

/-- Mode uniformity: the second genetic position is present on every entry
or absent on every entry.  The ingestion of `main` builds all entries with
the same shape, so every input the reduction loop ever sees satisfies
this. -/
def UniformMode {n : Nat} (ents : Fin n → MapEntryData) : Prop :=
  (∀ i, (ents i).genetPos2 = none) ∨ (∀ i, (ents i).genetPos2 ≠ none)

/-- `r` is the immediate successor of `i` in `S`: it is in `S`, beyond `i`,
and no element of `S` beyond `i` is smaller. -/
def IsNext {n : Nat} (S : List (Fin n)) (i r : Fin n) : Prop :=
  r ∈ S ∧ i < r ∧ ∀ j ∈ S, i < j → r ≤ j

/-- `l` is the immediate predecessor of `i` in `S`. -/
def IsPrev {n : Nat} (S : List (Fin n)) (i l : Fin n) : Prop :=
  l ∈ S ∧ l < i ∧ ∀ j ∈ S, j < i → j ≤ l

/-- The invariant maintained by every completed iteration of the reduction
loop: the chain is sorted; the two end nodes are never spliced out and keep
the sentinel error `10000`; the cursor and the skip marker point into the
chain, the marker strictly left of the cursor; every stored interior error
is the interpolation error from the node's current neighbors; every
`rightDel` set holds exactly deleted nodes lying strictly between its owner
and the owner's successor, every deleted node is in some surviving
`rightDel` set, and every recorded deleted node still reconstructs from its
owner and the owner's successor with error below the tolerance. -/
structure Inv {n : Nat} (ents : Fin n → MapEntryData) (tol : ℚ) (cfg : Cfg n) : Prop where
  sorted : cfg.alive.Pairwise (· < ·)
  first_mem : ∀ i : Fin n, i.val = 0 → i ∈ cfg.alive
  last_mem : ∀ i : Fin n, i.val = n - 1 → i ∈ cfg.alive
  cur_mem : ∀ c, cfg.cur = some c → c ∈ cfg.alive
  fs_mem : ∀ s, cfg.firstSkipped = some s → s ∈ cfg.alive
  fs_lt : ∀ s c, cfg.firstSkipped = some s → cfg.cur = some c → s < c
  first_err : ∀ i : Fin n, i.val = 0 → cfg.err i = 10000
  last_err : ∀ i : Fin n, i.val = n - 1 → cfg.err i = 10000
  fresh : ∀ i ∈ cfg.alive, ∀ l r, prevAlive cfg.alive i = some l →
    nextAlive cfg.alive i = some r → error (ents l) (ents i) (ents r) = .ok (cfg.err i)
  rd_sub : ∀ e ∈ cfg.alive, ∀ d ∈ cfg.rightDel e,
    d ∉ cfg.alive ∧ e < d ∧ ∀ r, nextAlive cfg.alive e = some r → d < r
  rd_full : ∀ d : Fin n, d ∉ cfg.alive → ∃ e ∈ cfg.alive, d ∈ cfg.rightDel e
  below : ∀ e ∈ cfg.alive, ∀ d ∈ cfg.rightDel e, ∀ r, nextAlive cfg.alive e = some r →
    ∃ v, error (ents e) (ents d) (ents r) = .ok v ∧ v < tol

/-- Number of chain nodes at or beyond the cursor (zero once the cursor is
past the end); second component of the termination measure. -/
def restCount {n : Nat} (cfg : Cfg n) : Nat :=
  match cfg.cur with
  | none => 0
  | some c => (cfg.alive.filter (fun j => c < j)).length + 1

/-- Termination measure of the reduction loop: deletions shrink the first
summand, every other iteration shrinks the second. -/
def mu {n : Nat} (cfg : Cfg n) : Nat :=
  cfg.alive.length * (n + 1) + restCount cfg

/-!  Theorems.  -/

/-- Claim C4: for `left.physPos < target.physPos < right.physPos`, the code's
`error` returns exactly the spec's formula: the absolute difference between
`target.genetPos` and the linear interpolation of `left.genetPos` and
`right.genetPos` at fraction `f`; and in sex-specific mode (second genetic
position present on the three entries) the maximum of that error and the
identically interpolated error of the second genetic position.  The
function is pure, so it has no side effects. -/
theorem C4_computeError (left target right : MapEntryData)
    (h1 : left.physPos < target.physPos) (h2 : target.physPos < right.physPos) :
    (left.genetPos2 = none → right.genetPos2 = none →
      error left target right = .ok |target.genetPos - specInterp left target right|) ∧
    (∀ gl gt gr, left.genetPos2 = some gl → target.genetPos2 = some gt →
      right.genetPos2 = some gr →
      error left target right =
        .ok (max |target.genetPos - specInterp left target right|
                 |gt - (gl + specFrac left target right * (gr - gl))|)) := by
  have hlt : (left.physPos : ℚ) < (right.physPos : ℚ) := by
    exact_mod_cast h1.trans h2
  have hne : ¬ ((right.physPos : ℚ) - (left.physPos : ℚ) = 0) := by
    intro h
    nlinarith
  constructor
  · intro hl hr
    simp [error, hne, hl, hr, specInterp, specFrac]
  · intro gl gt gr hl ht hr
    simp [error, hne, hl, ht, hr, specInterp, specFrac]

/-- Witness for C4 at concrete entries, in both modes. -/
theorem C4_computeError_witness :
    error ⟨0, 0, none⟩ ⟨1, 1/2, none⟩ ⟨2, 1, none⟩ =
      .ok |(1 : ℚ)/2 - specInterp ⟨0, 0, none⟩ ⟨1, 1/2, none⟩ ⟨2, 1, none⟩| ∧
    error ⟨0, 0, some 0⟩ ⟨1, 1/2, some (1/4)⟩ ⟨2, 1, some 1⟩ =
      .ok (max |(1 : ℚ)/2 - specInterp ⟨0, 0, some 0⟩ ⟨1, 1/2, some (1/4)⟩ ⟨2, 1, some 1⟩|
               |(1 : ℚ)/4 - (0 + specFrac ⟨0, 0, some 0⟩ ⟨1, 1/2, some (1/4)⟩ ⟨2, 1, some 1⟩ * (1 - 0))|) := by
  constructor
  · exact (C4_computeError ⟨0, 0, none⟩ ⟨1, 1/2, none⟩ ⟨2, 1, none⟩
      (by decide) (by decide)).1 rfl rfl
  · exact (C4_computeError ⟨0, 0, some 0⟩ ⟨1, 1/2, some (1/4)⟩ ⟨2, 1, some 1⟩
      (by decide) (by decide)).2 0 (1/4) 1 rfl rfl rfl

/-- Claim C9, counterexample.  First conjunct: with `genetPos2` present on
`left` and `right` but absent on `target`, `error` does not return a numeric
result; it aborts with a `TypeError` (the claim asserts a numeric result
whenever both sides agree).  Second conjunct: with exactly one of
`left.genetPos2`, `right.genetPos2` undefined but equal physical positions,
the abort is a `ZeroDivisionError`, not the assertion failure the claim's
"if and only if" promises. -/
theorem C9_counterexample :
    error ⟨0, 0, some 0⟩ ⟨1, 0, none⟩ ⟨2, 0, some 0⟩ = .error .typeErr ∧
    error ⟨3, 0, none⟩ ⟨3, 0, none⟩ ⟨3, 0, some 0⟩ = .error .zeroDiv :=
  ⟨by decide, by decide⟩

/-- Claim C9 (amended): for entries with distinct physical positions,
`error` fails the `assert` exactly when the second genetic position is
present on exactly one of `left` and `right`; and it returns a numeric
result when the second genetic position is absent on both `left` and
`right`, or present on `left`, `right` and `target` alike. -/
theorem C9_mode_abort (left target right : MapEntryData)
    (hp : left.physPos ≠ right.physPos) :
    (error left target right = .error .assertFail ↔
      ((left.genetPos2 = none ∧ right.genetPos2 ≠ none) ∨
       (left.genetPos2 ≠ none ∧ right.genetPos2 = none))) ∧
    (((left.genetPos2 = none ∧ right.genetPos2 = none) ∨
      (left.genetPos2 ≠ none ∧ right.genetPos2 ≠ none ∧ target.genetPos2 ≠ none)) →
      ∃ v, error left target right = .ok v) := by
  have hne : ¬ ((right.physPos : ℚ) - (left.physPos : ℚ) = 0) := by
    intro h
    apply hp
    have h2 : (left.physPos : ℚ) = (right.physPos : ℚ) := by linarith
    exact_mod_cast h2
  rcases hl : left.genetPos2 with _ | gl <;> rcases hr : right.genetPos2 with _ | gr <;>
    rcases ht : target.genetPos2 with _ | gt <;>
      simp [error, hne, hl, hr, ht]

/-- Witness for C9 (amended) at concrete entries: the assertion fires on a
mixed pair, and a numeric result comes back in sex-averaged mode. -/
theorem C9_mode_abort_witness :
    (error ⟨0, 0, none⟩ ⟨1, 0, none⟩ ⟨2, 0, some 0⟩ = .error .assertFail) ∧
    (∃ v, error ⟨0, 0, none⟩ ⟨1, 0, none⟩ ⟨2, 1, none⟩ = .ok v) := by
  constructor
  · exact (C9_mode_abort ⟨0, 0, none⟩ ⟨1, 0, none⟩ ⟨2, 0, some 0⟩ (by decide)).1.mpr
      (Or.inl ⟨rfl, by simp⟩)
  · exact (C9_mode_abort ⟨0, 0, none⟩ ⟨1, 0, none⟩ ⟨2, 1, none⟩ (by decide)).2
      (Or.inl ⟨rfl, rfl⟩)

/-- Claim C2, counterexample: on the spec's worked scenario (tolerance
`0.02`) the reducer's output is not the claimed map `1, 300, 400`. -/
theorem C2_counterexample :
    (runFull scenarioEnts (1/50)).map (outputPositions scenarioEnts) ≠ .ok [1, 300, 400] := by
  decide

/-- Claim C2 (amended): on input rows `(1,0.0), (100,0.1), (200,0.19),
(300,0.31), (400,0.40)` with tolerance `0.02` the reducer drops the entries
at 100, 300 and 200, in that deletion order, and the output map consists of
the entries at 1 and 400.  The conjuncts pin the intermediate states: after
two iterations (keep 1, delete 100) the entry at 200 carries recomputed
error `122/7475`, above its right neighbor's `3/200`, so iteration three
skips 200 and sets the first-skipped marker; iteration four deletes 300 and
resumes at the marker with 200's error recomputed to `379/39900`; iteration
five deletes 200, whose cascade re-check of 100 and 300 against the span
1..400 passes, and the head's `rightDel` records 100, 300, 200 in
deletion-merge order. -/
theorem C2_scenario :
    (runFull scenarioEnts (1/50)).map (outputPositions scenarioEnts) = .ok [1, 400] ∧
    (runFull scenarioEnts (1/50)).map
      (fun f => (f.rightDel 0).map (fun i => (scenarioEnts i).physPos)) = .ok [100, 300, 200] ∧
    (initCfg scenarioEnts >>= runN scenarioEnts (1/50) 2).map
      (fun f => (f.alive.map (fun i => (scenarioEnts i).physPos), f.err 2, f.err 3)) =
      .ok ([1, 200, 300, 400], 122/7475, 3/200) ∧
    (initCfg scenarioEnts >>= runN scenarioEnts (1/50) 3).map
      (fun f => (f.alive.map (fun i => (scenarioEnts i).physPos), f.firstSkipped, f.cur)) =
      .ok ([1, 200, 300, 400], some 2, some 3) ∧
    (initCfg scenarioEnts >>= runN scenarioEnts (1/50) 4).map
      (fun f => (f.alive.map (fun i => (scenarioEnts i).physPos), f.firstSkipped, f.cur, f.err 2)) =
      .ok ([1, 200, 400], none, some 2, 379/39900) ∧
    (initCfg scenarioEnts >>= runN scenarioEnts (1/50) 5).map
      (fun f => f.alive.map (fun i => (scenarioEnts i).physPos)) = .ok [1, 400] :=
  ⟨by decide, by decide, by decide, by decide, by decide, by decide⟩

/-- Claim C5, counterexample: the reducer is not idempotent.  On the five
rows at positions 5, 6, 40, 54, 57 with tolerance `17/10`, the first run
outputs exactly the four rows of `idem2Rows` (positions 5, 6, 54, 57); a
fresh second run on that output deletes the entry at 54, leaving 5, 6, 57. -/
theorem C5_counterexample :
    (runFull idem1Ents (17/10)).map (fun f => f.alive.map idem1Ents) = .ok idem2Rows ∧
    idem2Rows.map MapEntryData.physPos = [5, 6, 54, 57] ∧
    (runFull idem2Ents (17/10)).map (outputPositions idem2Ents) = .ok [5, 6, 57] :=
  ⟨by decide, by decide, by decide⟩

/-- Claim C6, counterexample: errors do not only decrease when the
interpolation base widens.  In the worked scenario the entry at position 200
(index 2) has initial error `3/200` from neighbors 100 and 300; after the
deletion of its left neighbor 100 (two loop iterations) `update_error`
recomputes it from the more distant neighbor 1 as `122/7475`, which is
strictly larger. -/
theorem C6_counterexample :
    (initCfg scenarioEnts).map (fun f => f.err 2) = .ok (3/200) ∧
    (initCfg scenarioEnts >>= runN scenarioEnts (1/50) 2).map (fun f => (f.alive, f.err 2)) =
      .ok ([0, 2, 3, 4], 122/7475) ∧
    ¬ ((122 : ℚ)/7475 ≤ 3/200) :=
  ⟨by decide, by decide, by decide⟩

/-- Claim C6 (amended): when a neighbor of an entry is removed,
`update_error` recomputes the entry's error from its widened interpolation
base, and the recomputed value may be larger as well as smaller than the
previous one.  In the worked scenario, index 2's error grows from `3/200` to
`122/7475` when its left neighbor (100) is deleted, then shrinks to
`379/39900` when its right neighbor (300) is deleted. -/
theorem C6_neighbor_removal :
    (initCfg scenarioEnts).map (fun f => f.err 2) = .ok (3/200) ∧
    (initCfg scenarioEnts >>= runN scenarioEnts (1/50) 2).map (fun f => (f.alive, f.err 2)) =
      .ok ([0, 2, 3, 4], 122/7475) ∧
    (initCfg scenarioEnts >>= runN scenarioEnts (1/50) 4).map (fun f => (f.alive, f.err 2)) =
      .ok ([0, 2, 4], 379/39900) ∧
    (3 : ℚ)/200 < 122/7475 ∧ (379 : ℚ)/39900 < 122/7475 :=
  ⟨by decide, by decide, by decide, by decide, by decide⟩

/-! Navigation lemmas for the sorted chain. -/

theorem head?_mem {α : Type} {T : List α} {a : α} (h : T.head? = some a) : a ∈ T := by
  cases T with
  | nil => simp at h
  | cons b t =>
    simp only [List.head?_cons, Option.some.injEq] at h
    exact h ▸ List.mem_cons_self b t

theorem getLast?_mem {α : Type} {T : List α} {a : α} (h : T.getLast? = some a) : a ∈ T := by
  induction T with
  | nil => simp at h
  | cons b t ih =>
    cases t with
    | nil =>
      simp only [List.getLast?_singleton, Option.some.injEq] at h
      exact h ▸ List.mem_cons_self b []
    | cons c t' =>
      rw [List.getLast?_cons_cons] at h
      exact List.mem_cons_of_mem b (ih h)

theorem nextAlive_mem_lt {n : Nat} {S : List (Fin n)} {i r : Fin n}
    (h : nextAlive S i = some r) : r ∈ S ∧ i < r := by
  unfold nextAlive at h
  have hm := head?_mem h
  rw [List.mem_filter] at hm
  exact ⟨hm.1, by simpa using hm.2⟩

theorem prevAlive_mem_lt {n : Nat} {S : List (Fin n)} {i l : Fin n}
    (h : prevAlive S i = some l) : l ∈ S ∧ l < i := by
  unfold prevAlive at h
  have hm := getLast?_mem h
  rw [List.mem_filter] at hm
  exact ⟨hm.1, by simpa using hm.2⟩

theorem sorted_head?_eq {n : Nat} {T : List (Fin n)} (hT : T.Pairwise (· < ·)) {m : Fin n} :
    T.head? = some m ↔ m ∈ T ∧ ∀ x ∈ T, m ≤ x := by
  cases T with
  | nil => simp
  | cons a t =>
    rw [List.pairwise_cons] at hT
    simp only [List.head?_cons, Option.some.injEq, List.mem_cons]
    constructor
    · rintro rfl
      refine ⟨Or.inl rfl, ?_⟩
      rintro x (rfl | hx)
      · exact le_refl x
      · exact (hT.1 x hx).le
    · rintro ⟨(rfl | hm), hmin⟩
      · rfl
      · exact absurd (hT.1 m hm) (not_lt.mpr (hmin a (Or.inl rfl)))

theorem sorted_getLast?_eq {n : Nat} {T : List (Fin n)} (hT : T.Pairwise (· < ·)) {m : Fin n} :
    T.getLast? = some m ↔ m ∈ T ∧ ∀ x ∈ T, x ≤ m := by
  induction T with
  | nil => simp
  | cons a t ih =>
    cases t with
    | nil =>
      simp only [List.getLast?_singleton, Option.some.injEq, List.mem_singleton,
        List.forall_mem_singleton]
      constructor
      · intro h
        subst h
        exact ⟨rfl, fun x hx => le_of_eq hx⟩
      · intro h
        exact h.1.symm
    | cons b t' =>
      rw [List.getLast?_cons_cons]
      rw [List.pairwise_cons] at hT
      rw [ih hT.2]
      constructor
      · rintro ⟨hm, hmax⟩
        refine ⟨List.mem_cons_of_mem a hm, ?_⟩
        intro x hx
        rcases List.mem_cons.mp hx with rfl | hx'
        · exact (hT.1 m hm).le
        · exact hmax x hx'
      · rintro ⟨hm, hmax⟩
        rcases List.mem_cons.mp hm with rfl | hm'
        · exact absurd (hT.1 b (List.mem_cons_self b t'))
            (not_lt.mpr (hmax b (List.mem_cons_of_mem m (List.mem_cons_self b t'))))
        · exact ⟨hm', fun x hx => hmax x (List.mem_cons_of_mem a hx)⟩

theorem nextAlive_some_iff {n : Nat} {S : List (Fin n)} (hS : S.Pairwise (· < ·)) {i r : Fin n} :
    nextAlive S i = some r ↔ IsNext S i r := by
  unfold nextAlive IsNext
  rw [sorted_head?_eq (hS.filter _)]
  simp only [List.mem_filter, decide_eq_true_eq]
  constructor
  · rintro ⟨⟨hrS, hir⟩, hmin⟩
    exact ⟨hrS, hir, fun j hj hij => hmin j ⟨hj, hij⟩⟩
  · rintro ⟨hrS, hir, hmin⟩
    exact ⟨⟨hrS, hir⟩, fun j hj => hmin j hj.1 hj.2⟩

theorem prevAlive_some_iff {n : Nat} {S : List (Fin n)} (hS : S.Pairwise (· < ·)) {i l : Fin n} :
    prevAlive S i = some l ↔ IsPrev S i l := by
  unfold prevAlive IsPrev
  rw [sorted_getLast?_eq (hS.filter _)]
  simp only [List.mem_filter, decide_eq_true_eq]
  constructor
  · rintro ⟨⟨hlS, hli⟩, hmax⟩
    exact ⟨hlS, hli, fun j hj hji => hmax j ⟨hj, hji⟩⟩
  · rintro ⟨hlS, hli, hmax⟩
    exact ⟨⟨hlS, hli⟩, fun j hj => hmax j hj.1 hj.2⟩

theorem nextAlive_none_iff {n : Nat} {S : List (Fin n)} {i : Fin n} :
    nextAlive S i = none ↔ ∀ j ∈ S, ¬ i < j := by
  unfold nextAlive
  rw [List.head?_eq_none_iff, List.filter_eq_nil_iff]
  simp

theorem prevAlive_none_iff {n : Nat} {S : List (Fin n)} {i : Fin n} :
    prevAlive S i = none ↔ ∀ j ∈ S, ¬ j < i := by
  unfold prevAlive
  rw [List.getLast?_eq_none_iff, List.filter_eq_nil_iff]
  simp

theorem prevAlive_of_val_zero {n : Nat} {S : List (Fin n)} {i : Fin n} (hi : i.val = 0) :
    prevAlive S i = none := by
  rw [prevAlive_none_iff]
  intro j _ hj
  rw [Fin.lt_def, hi] at hj
  omega

theorem nextAlive_of_val_last {n : Nat} {S : List (Fin n)} {i : Fin n} (hi : i.val = n - 1) :
    nextAlive S i = none := by
  rw [nextAlive_none_iff]
  intro j hj hij
  rw [Fin.lt_def, hi] at hij
  have := j.isLt
  omega

theorem val_zero_of_prevAlive_none {n : Nat} {S : List (Fin n)} {c : Fin n}
    (h : prevAlive S c = none) (h0 : ∀ i : Fin n, i.val = 0 → i ∈ S) : c.val = 0 := by
  rw [prevAlive_none_iff] at h
  have hn : 0 < n := c.pos
  have h1 := h ⟨0, hn⟩ (h0 ⟨0, hn⟩ rfl)
  simp only [Fin.lt_def, Fin.val_mk] at h1
  omega

theorem val_last_of_nextAlive_none {n : Nat} {S : List (Fin n)} {c : Fin n}
    (h : nextAlive S c = none) (hl : ∀ i : Fin n, i.val = n - 1 → i ∈ S) : c.val = n - 1 := by
  rw [nextAlive_none_iff] at h
  have hn : 0 < n := c.pos
  have h1 := h ⟨n - 1, by omega⟩ (hl ⟨n - 1, by omega⟩ rfl)
  simp only [Fin.lt_def, Fin.val_mk] at h1
  have := c.isLt
  omega

theorem nextAlive_of_prevAlive {n : Nat} {S : List (Fin n)} (hS : S.Pairwise (· < ·))
    {c lf : Fin n} (hc : c ∈ S) (h : prevAlive S c = some lf) :
    nextAlive S lf = some c := by
  rw [prevAlive_some_iff hS] at h
  rw [nextAlive_some_iff hS]
  refine ⟨hc, h.2.1, fun j hj hlj => ?_⟩
  by_contra hcj
  push_neg at hcj
  exact absurd (h.2.2 j hj hcj) (not_le.mpr hlj)

theorem prevAlive_of_nextAlive {n : Nat} {S : List (Fin n)} (hS : S.Pairwise (· < ·))
    {c rt : Fin n} (hc : c ∈ S) (h : nextAlive S c = some rt) :
    prevAlive S rt = some c := by
  rw [nextAlive_some_iff hS] at h
  rw [prevAlive_some_iff hS]
  refine ⟨hc, h.2.1, fun j hj hjr => ?_⟩
  by_contra hcj
  push_neg at hcj
  exact absurd (h.2.2 j hj hcj) (not_le.mpr hjr)

theorem sorted_nodup {n : Nat} {S : List (Fin n)} (hS : S.Pairwise (· < ·)) : S.Nodup :=
  hS.imp (fun h => ne_of_lt h)

theorem mem_erase_iff_of_sorted {n : Nat} {S : List (Fin n)} (hS : S.Pairwise (· < ·))
    {a c : Fin n} : a ∈ S.erase c ↔ a ∈ S ∧ a ≠ c := by
  rw [List.Nodup.mem_erase_iff (sorted_nodup hS)]
  tauto

theorem sorted_erase {n : Nat} {S : List (Fin n)} (hS : S.Pairwise (· < ·)) {c : Fin n} :
    (S.erase c).Pairwise (· < ·) :=
  List.Pairwise.sublist (List.erase_sublist c S) hS

theorem nextAlive_erase_self {n : Nat} {S : List (Fin n)} (hS : S.Pairwise (· < ·))
    {c lf : Fin n} (hlf : prevAlive S c = some lf) :
    nextAlive (S.erase c) lf = nextAlive S c := by
  rw [prevAlive_some_iff hS] at hlf
  obtain ⟨hlfS, hlfc, hlfmax⟩ := hlf
  cases hrt : nextAlive S c with
  | some rt =>
    rw [nextAlive_some_iff hS] at hrt
    obtain ⟨hrtS, hcrt, hrtmin⟩ := hrt
    rw [nextAlive_some_iff (sorted_erase hS)]
    refine ⟨?_, lt_trans hlfc hcrt, ?_⟩
    · rw [mem_erase_iff_of_sorted hS]
      exact ⟨hrtS, ne_of_gt hcrt⟩
    · intro j hj hlfj
      rw [mem_erase_iff_of_sorted hS] at hj
      rcases lt_trichotomy j c with h | h | h
      · exact absurd (hlfmax j hj.1 h) (not_le.mpr hlfj)
      · exact absurd h hj.2
      · exact hrtmin j hj.1 h
  | none =>
    rw [nextAlive_none_iff] at hrt ⊢
    intro j hj hlfj
    rw [mem_erase_iff_of_sorted hS] at hj
    rcases lt_trichotomy j c with h | h | h
    · exact absurd (hlfmax j hj.1 h) (not_le.mpr hlfj)
    · exact hj.2 h
    · exact hrt j hj.1 h

theorem prevAlive_erase_self {n : Nat} {S : List (Fin n)} (hS : S.Pairwise (· < ·))
    {c rt : Fin n} (hrt : nextAlive S c = some rt) :
    prevAlive (S.erase c) rt = prevAlive S c := by
  rw [nextAlive_some_iff hS] at hrt
  obtain ⟨hrtS, hcrt, hrtmin⟩ := hrt
  cases hlf : prevAlive S c with
  | some lf =>
    rw [prevAlive_some_iff hS] at hlf
    obtain ⟨hlfS, hlfc, hlfmax⟩ := hlf
    rw [prevAlive_some_iff (sorted_erase hS)]
    refine ⟨?_, lt_trans hlfc hcrt, ?_⟩
    · rw [mem_erase_iff_of_sorted hS]
      exact ⟨hlfS, ne_of_lt hlfc⟩
    · intro j hj hjrt
      rw [mem_erase_iff_of_sorted hS] at hj
      rcases lt_trichotomy j c with h | h | h
      · exact hlfmax j hj.1 h
      · exact absurd h hj.2
      · exact absurd (hrtmin j hj.1 h) (not_le.mpr hjrt)
  | none =>
    rw [prevAlive_none_iff] at hlf ⊢
    intro j hj hjrt
    rw [mem_erase_iff_of_sorted hS] at hj
    rcases lt_trichotomy j c with h | h | h
    · exact hlf j hj.1 h
    · exact hj.2 h
    · exact absurd (hrtmin j hj.1 h) (not_le.mpr hjrt)

theorem nextAlive_erase_other {n : Nat} {S : List (Fin n)} (hS : S.Pairwise (· < ·))
    {c i : Fin n} (hne : nextAlive S i ≠ some c) :
    nextAlive (S.erase c) i = nextAlive S i := by
  cases hx : nextAlive S i with
  | some r =>
    have hr := (nextAlive_some_iff hS).mp hx
    rw [nextAlive_some_iff (sorted_erase hS)]
    have hrc : r ≠ c := fun h => hne (h ▸ hx)
    exact ⟨(mem_erase_iff_of_sorted hS).mpr ⟨hr.1, hrc⟩, hr.2.1,
      fun j hj hij => hr.2.2 j ((mem_erase_iff_of_sorted hS).mp hj).1 hij⟩
  | none =>
    rw [nextAlive_none_iff] at hx ⊢
    exact fun j hj hij => hx j ((mem_erase_iff_of_sorted hS).mp hj).1 hij

theorem prevAlive_erase_other {n : Nat} {S : List (Fin n)} (hS : S.Pairwise (· < ·))
    {c i : Fin n} (hne : prevAlive S i ≠ some c) :
    prevAlive (S.erase c) i = prevAlive S i := by
  cases hx : prevAlive S i with
  | some l =>
    have hl := (prevAlive_some_iff hS).mp hx
    rw [prevAlive_some_iff (sorted_erase hS)]
    have hlc : l ≠ c := fun h => hne (h ▸ hx)
    exact ⟨(mem_erase_iff_of_sorted hS).mpr ⟨hl.1, hlc⟩, hl.2.1,
      fun j hj hji => hl.2.2 j ((mem_erase_iff_of_sorted hS).mp hj).1 hji⟩
  | none =>
    rw [prevAlive_none_iff] at hx ⊢
    exact fun j hj hji => hx j ((mem_erase_iff_of_sorted hS).mp hj).1 hji

theorem nextAlive_ne_of_ne_prev {n : Nat} {S : List (Fin n)} (hS : S.Pairwise (· < ·))
    {c lf i : Fin n} (hlf : prevAlive S c = some lf) (hiS : i ∈ S) (hi : i ≠ lf) :
    nextAlive S i ≠ some c := by
  intro h
  rw [nextAlive_some_iff hS] at h
  rw [prevAlive_some_iff hS] at hlf
  have h1 : i ≤ lf := hlf.2.2 i hiS h.2.1
  have h2 : i < lf := lt_of_le_of_ne h1 hi
  exact absurd (h.2.2 lf hlf.1 h2) (not_le.mpr hlf.2.1)

theorem prevAlive_ne_of_ne_next {n : Nat} {S : List (Fin n)} (hS : S.Pairwise (· < ·))
    {c rt i : Fin n} (hrt : nextAlive S c = some rt) (hiS : i ∈ S) (hi : i ≠ rt) :
    prevAlive S i ≠ some c := by
  intro h
  rw [prevAlive_some_iff hS] at h
  rw [nextAlive_some_iff hS] at hrt
  have h1 : rt ≤ i := hrt.2.2 i hiS h.2.1
  have h2 : rt < i := lt_of_le_of_ne h1 (fun e => hi e.symm)
  exact absurd (h.2.2 rt hrt.1 h2) (not_le.mpr hrt.2.1)

theorem nav_of_gap {n : Nat} {S : List (Fin n)} (hS : S.Pairwise (· < ·)) {e d r : Fin n}
    (he : e ∈ S) (hed : e < d) (hr : nextAlive S e = some r) (hdr : d < r) :
    prevAlive S d = some e ∧ nextAlive S d = some r := by
  rw [nextAlive_some_iff hS] at hr
  constructor
  · rw [prevAlive_some_iff hS]
    refine ⟨he, hed, fun j hj hjd => ?_⟩
    by_contra hje
    push_neg at hje
    exact absurd (hr.2.2 j hj hje) (not_le.mpr (lt_trans hjd hdr))
  · rw [nextAlive_some_iff hS]
    exact ⟨hr.1, hdr, fun j hj hdj => hr.2.2 j hj (lt_trans hed hdj)⟩

theorem nextAlive_isSome_of_ne_last {n : Nat} {S : List (Fin n)} {e : Fin n} (_he : e ∈ S)
    (hlast : ∀ i : Fin n, i.val = n - 1 → i ∈ S) (hne : e.val ≠ n - 1) :
    ∃ r, nextAlive S e = some r := by
  cases hx : nextAlive S e with
  | some r => exact ⟨r, rfl⟩
  | none =>
    rw [nextAlive_none_iff] at hx
    have hn : 0 < n := e.pos
    have hl := hlast ⟨n - 1, by omega⟩ rfl
    have h2 := hx _ hl
    simp only [Fin.lt_def, Fin.val_mk] at h2
    have := e.isLt
    omega

theorem lt_of_physPos_lt {n : Nat} {ents : Fin n → MapEntryData} (h : PhysSorted ents)
    {i j : Fin n} (hp : (ents i).physPos < (ents j).physPos) : i < j := by
  by_contra hc
  push_neg at hc
  rcases eq_or_lt_of_le hc with rfl | hlt
  · exact absurd hp (lt_irrefl _)
  · exact absurd (h j i hlt) (not_lt.mpr hp.le)

/-! Characterizations of the stateful operations. -/

theorem update_error_ok {n : Nat} {ents : Fin n → MapEntryData} {cfg : Cfg n} {i : Fin n}
    {cfg' : Cfg n} (h : update_error ents cfg i = .ok cfg') :
    cfg'.alive = cfg.alive ∧ cfg'.rightDel = cfg.rightDel ∧ cfg'.cur = cfg.cur ∧
    cfg'.firstSkipped = cfg.firstSkipped ∧
    ((∃ l r v, prevAlive cfg.alive i = some l ∧ nextAlive cfg.alive i = some r ∧
        error (ents l) (ents i) (ents r) = .ok v ∧
        cfg'.err = Function.update cfg.err i v) ∨
     ((prevAlive cfg.alive i = none ∨ nextAlive cfg.alive i = none) ∧ cfg'.err = cfg.err)) := by
  unfold update_error at h
  split at h
  case h_1 l r hl hr =>
    split at h
    case h_1 => exact absurd h (by simp)
    case h_2 v hv =>
      rw [Except.ok.injEq] at h
      subst h
      exact ⟨rfl, rfl, rfl, rfl, Or.inl ⟨l, r, v, hl, hr, hv, rfl⟩⟩
  case h_2 hmiss =>
    rw [Except.ok.injEq] at h
    subst h
    refine ⟨rfl, rfl, rfl, rfl, Or.inr ⟨?_, rfl⟩⟩
    cases hl : prevAlive cfg.alive i with
    | none => exact Or.inl rfl
    | some l =>
      cases hr : nextAlive cfg.alive i with
      | none => exact Or.inr rfl
      | some r => exact (hmiss l r hl hr).elim

theorem update_error_err_of_ne {n : Nat} {ents : Fin n → MapEntryData} {cfg : Cfg n}
    {i j : Fin n} {cfg' : Cfg n} (h : update_error ents cfg i = .ok cfg') (hne : j ≠ i) :
    cfg'.err j = cfg.err j := by
  rcases (update_error_ok h).2.2.2.2 with ⟨l, r, v, _, _, _, he⟩ | ⟨_, he⟩
  · rw [he, Function.update_noteq hne]
  · rw [he]

theorem cascadeLoop_nil {n : Nat} {ents : Fin n → MapEntryData} {tol : ℚ} {lf : Fin n}
    {r : Option (Fin n)} : cascadeLoop ents tol lf r [] = .ok false := rfl

theorem cascadeLoop_cons {n : Nat} {ents : Fin n → MapEntryData} {tol : ℚ} {lf rt a : Fin n}
    {ds : List (Fin n)} :
    cascadeLoop ents tol lf (some rt) (a :: ds) =
      (match error (ents lf) (ents a) (ents rt) with
       | .error c => .error c
       | .ok v => if tol ≤ v then .ok true else cascadeLoop ents tol lf (some rt) ds) := rfl

theorem cascadeLoop_none_cons {n : Nat} {ents : Fin n → MapEntryData} {tol : ℚ} {lf a : Fin n}
    {ds : List (Fin n)} :
    cascadeLoop ents tol lf none (a :: ds) = .error .attrNone := rfl

theorem cascadeLoop_false {n : Nat} {ents : Fin n → MapEntryData} {tol : ℚ} {lf : Fin n}
    {r : Option (Fin n)} {ds : List (Fin n)} (h : cascadeLoop ents tol lf r ds = .ok false) :
    ∀ d ∈ ds, ∃ rt v, r = some rt ∧ error (ents lf) (ents d) (ents rt) = .ok v ∧ v < tol := by
  induction ds with
  | nil => intro d hd; simp at hd
  | cons a ds ih =>
    intro d hd
    cases r with
    | none => exact absurd (cascadeLoop_none_cons.symm.trans h) (by simp)
    | some rt =>
      rw [cascadeLoop_cons] at h
      cases hv : error (ents lf) (ents a) (ents rt) with
      | error cr =>
        rw [hv] at h
        exact absurd h (by simp)
      | ok v =>
        rw [hv] at h
        dsimp only at h
        by_cases hle : tol ≤ v
        · rw [if_pos hle] at h
          exact absurd h (by simp)
        · rw [if_neg hle] at h
          rcases List.mem_cons.mp hd with rfl | hd'
          · exact ⟨rt, v, rfl, hv, not_le.mp hle⟩
          · exact ih h d hd'

theorem cascadeLoop_isOk {n : Nat} {ents : Fin n → MapEntryData} {tol : ℚ} {lf : Fin n}
    {rt : Fin n} {ds : List (Fin n)}
    (h : ∀ d ∈ ds, ∃ v, error (ents lf) (ents d) (ents rt) = .ok v) :
    ∃ b, cascadeLoop ents tol lf (some rt) ds = .ok b := by
  induction ds with
  | nil => exact ⟨false, rfl⟩
  | cons a ds ih =>
    obtain ⟨v, hv⟩ := h a (List.mem_cons_self a ds)
    obtain ⟨b, hb⟩ := ih (fun d hd => h d (List.mem_cons_of_mem a hd))
    rw [cascadeLoop_cons, hv]
    dsimp only
    by_cases hle : tol ≤ v
    · exact ⟨true, by rw [if_pos hle]⟩
    · exact ⟨b, by rw [if_neg hle]; exact hb⟩

theorem error_ne_attrNone (l t r : MapEntryData) : error l t r ≠ .error .attrNone := by
  unfold error
  split
  · simp
  · split
    · simp
    · simp
    · simp
    · split
      · simp
      · simp

theorem cascadeLoop_ne_attrNone {n : Nat} {ents : Fin n → MapEntryData} {tol : ℚ}
    {lf rt : Fin n} {ds : List (Fin n)} :
    cascadeLoop ents tol lf (some rt) ds ≠ .error .attrNone := by
  induction ds with
  | nil => simp [cascadeLoop_nil]
  | cons a ds ih =>
    rw [cascadeLoop_cons]
    cases hv : error (ents lf) (ents a) (ents rt) with
    | error cr =>
      intro hcontra
      simp only [Except.error.injEq] at hcontra
      exact error_ne_attrNone _ _ _ (hcontra ▸ hv)
    | ok v =>
      dsimp only
      by_cases hle : tol ≤ v
      · rw [if_pos hle]
        simp
      · rw [if_neg hle]
        exact ih

theorem update_error_ne_attrNone {n : Nat} {ents : Fin n → MapEntryData} {cfg : Cfg n}
    {i : Fin n} : update_error ents cfg i ≠ .error .attrNone := by
  unfold update_error
  split
  case h_1 l r hl hr =>
    cases hv : error (ents l) (ents i) (ents r) with
    | error cr =>
      intro hcontra
      rw [Except.error.injEq] at hcontra
      exact error_ne_attrNone _ _ _ (hcontra ▸ hv)
    | ok v => simp
  case h_2 => simp

theorem initPass_ok {n : Nat} {ents : Fin n → MapEntryData} {cfg : Cfg n} {L : List (Fin n)}
    {cfg' : Cfg n} (hL : L.Nodup) (h : initPass ents cfg L = .ok cfg') :
    cfg'.alive = cfg.alive ∧ cfg'.rightDel = cfg.rightDel ∧ cfg'.cur = cfg.cur ∧
    cfg'.firstSkipped = cfg.firstSkipped ∧
    (∀ i, i ∉ L → cfg'.err i = cfg.err i) ∧
    (∀ i ∈ L, ∀ l r, prevAlive cfg.alive i = some l → nextAlive cfg.alive i = some r →
      error (ents l) (ents i) (ents r) = .ok (cfg'.err i)) ∧
    (∀ i ∈ L, (prevAlive cfg.alive i = none ∨ nextAlive cfg.alive i = none) →
      cfg'.err i = cfg.err i) := by
  induction L generalizing cfg with
  | nil =>
    unfold initPass at h
    rw [Except.ok.injEq] at h
    subst h
    refine ⟨rfl, rfl, rfl, rfl, fun _ _ => rfl, ?_, ?_⟩
    · intro i hi
      simp at hi
    · intro i hi
      simp at hi
  | cons a L ih =>
    unfold initPass at h
    rw [List.nodup_cons] at hL
    split at h
    case h_1 => exact absurd h (by simp)
    case h_2 cfg1 hcfg1 =>
      obtain ⟨he1, he2, he3, he4, hout, hfresh, hend⟩ := ih hL.2 h
      obtain ⟨u1, u2, u3, u4, udisc⟩ := update_error_ok hcfg1
      rw [u1] at he1 hfresh hend
      rw [u2] at he2
      rw [u3] at he3
      rw [u4] at he4
      refine ⟨he1, he2, he3, he4, ?_, ?_, ?_⟩
      · intro i hi
        rw [List.mem_cons] at hi
        push_neg at hi
        rw [hout i hi.2]
        exact update_error_err_of_ne hcfg1 hi.1
      · intro i hi l r hl hr
        rcases List.mem_cons.mp hi with rfl | hi'
        · have herr : cfg'.err i = cfg1.err i := hout i hL.1
          rcases udisc with ⟨l', r', v, hl', hr', hv, he⟩ | ⟨hnone, _⟩
          · rw [hl'] at hl
            rw [hr'] at hr
            rw [Option.some.injEq] at hl hr
            subst hl
            subst hr
            rw [herr, he, Function.update_same]
            exact hv
          · rcases hnone with h0 | h0
            · rw [h0] at hl
              exact absurd hl (by simp)
            · rw [h0] at hr
              exact absurd hr (by simp)
        · exact hfresh i hi' l r hl hr
      · intro i hi hnone
        rcases List.mem_cons.mp hi with rfl | hi'
        · have herr : cfg'.err i = cfg1.err i := hout i hL.1
          rcases udisc with ⟨l', r', v, hl', hr', hv, he⟩ | ⟨_, he⟩
          · rcases hnone with h0 | h0
            · rw [h0] at hl'
              exact absurd hl' (by simp)
            · rw [h0] at hr'
              exact absurd hr' (by simp)
          · rw [herr, he]
        · rw [hend i hi' hnone]
          exact update_error_err_of_ne hcfg1 (fun e => hL.1 (e ▸ hi'))

/-- Exhaustive description of the successful outcomes of one loop iteration:
keep, skip, cascade-blocked, or delete (with its three cursor choices). -/
theorem stepOnce_ok_cases {n : Nat} {ents : Fin n → MapEntryData} {tol : ℚ} {cfg : Cfg n}
    {c : Fin n} {cfg' : Cfg n} (h : stepOnce ents tol cfg c = .ok cfg') :
    (tol ≤ cfg.err c ∧ cfg' = { cfg with cur := nextAlive cfg.alive c }) ∨
    (¬ tol ≤ cfg.err c ∧
      cfg' =
        { cfg with
            cur := nextAlive cfg.alive c
            firstSkipped := (match cfg.firstSkipped with
                             | none => some c
                             | some s => some s) }) ∨
    (¬ tol ≤ cfg.err c ∧ cfg' = { cfg with cur := nextAlive cfg.alive c } ∧
      ∃ lf, prevAlive cfg.alive c = some lf ∧
        cascadeLoop ents tol lf (nextAlive cfg.alive c)
          (cfg.rightDel lf ++ cfg.rightDel c) = .ok true) ∨
    (∃ lf rt cfg2 cfg3,
      ¬ tol ≤ cfg.err c ∧
      prevAlive cfg.alive c = some lf ∧ nextAlive cfg.alive c = some rt ∧
      cascadeLoop ents tol lf (some rt) (cfg.rightDel lf ++ cfg.rightDel c) = .ok false ∧
      update_error ents { cfg with alive := cfg.alive.erase c } lf = .ok cfg2 ∧
      update_error ents cfg2 rt = .ok cfg3 ∧
      ((∃ fs, cfg.firstSkipped = some fs ∧
         cfg' = { cfg3 with
                  rightDel := Function.update cfg3.rightDel lf
                    ((cfg3.rightDel lf ++ cfg3.rightDel c) ++ [c]),
                  cur := some fs, firstSkipped := none }) ∨
       (cfg.firstSkipped = none ∧ cfg3.err lf < tol ∧
         cfg' = { cfg3 with
                  rightDel := Function.update cfg3.rightDel lf
                    ((cfg3.rightDel lf ++ cfg3.rightDel c) ++ [c]),
                  cur := some lf }) ∨
       (cfg.firstSkipped = none ∧ ¬ cfg3.err lf < tol ∧
         cfg' = { cfg3 with
                  rightDel := Function.update cfg3.rightDel lf
                    ((cfg3.rightDel lf ++ cfg3.rightDel c) ++ [c]),
                  cur := some rt }))) := by
  simp only [stepOnce] at h
  by_cases h1 : tol ≤ cfg.err c
  · rw [if_pos h1] at h
    rw [Except.ok.injEq] at h
    exact Or.inl ⟨h1, h.symm⟩
  · rw [if_neg h1] at h
    split at h
    · rw [Except.ok.injEq] at h
      exact Or.inr (Or.inl ⟨h1, h.symm⟩)
    · split at h
      · exact absurd h (by simp)
      next lf hlf =>
        split at h
        next cr hcr => exact absurd h (by simp)
        next hcas =>
          rw [Except.ok.injEq] at h
          exact Or.inr (Or.inr (Or.inl ⟨h1, h.symm, lf, hlf, hcas⟩))
        next hcas =>
          split at h
          · exact absurd h (by simp)
          next rt hrt =>
            rw [hrt] at hcas
            split at h
            · exact absurd h (by simp)
            next cfg2 hcfg2 =>
              split at h
              · exact absurd h (by simp)
              next cfg3 hcfg3 =>
                refine Or.inr (Or.inr (Or.inr ⟨lf, rt, cfg2, cfg3, h1, hlf, hrt, hcas,
                  hcfg2, hcfg3, ?_⟩))
                split at h
                next fs hfs =>
                  rw [Except.ok.injEq] at h
                  exact Or.inl ⟨fs, hfs, h.symm⟩
                next hfs =>
                  split at h
                  · rw [Except.ok.injEq] at h
                    rename_i h5
                    exact Or.inr (Or.inl ⟨hfs, h5, h.symm⟩)
                  · rw [Except.ok.injEq] at h
                    rename_i h5
                    exact Or.inr (Or.inr ⟨hfs, h5, h.symm⟩)

/-- Invariant preservation for the delete branch of the loop. -/
theorem delete_inv {n : Nat} {ents : Fin n → MapEntryData} {tol : ℚ} {cfg : Cfg n}
    {c lf rt : Fin n} {cfg2 cfg3 cfg' : Cfg n}
    (hInv : Inv ents tol cfg) (hccur : cfg.cur = some c)
    (hterr : ¬ tol ≤ cfg.err c)
    (hlf : prevAlive cfg.alive c = some lf) (hrt : nextAlive cfg.alive c = some rt)
    (hcas : cascadeLoop ents tol lf (some rt) (cfg.rightDel lf ++ cfg.rightDel c) = .ok false)
    (hcfg2 : update_error ents { cfg with alive := cfg.alive.erase c } lf = .ok cfg2)
    (hcfg3 : update_error ents cfg2 rt = .ok cfg3)
    (hA : cfg'.alive = cfg.alive.erase c)
    (hR : cfg'.rightDel = Function.update cfg3.rightDel lf
      ((cfg3.rightDel lf ++ cfg3.rightDel c) ++ [c]))
    (hE : cfg'.err = cfg3.err)
    (hfs : cfg'.firstSkipped = none)
    (hcur : cfg'.cur = some lf ∨ cfg'.cur = some rt ∨
      (∃ fs, cfg.firstSkipped = some fs ∧ cfg'.cur = some fs) ∨ cfg'.cur = none) :
    Inv ents tol cfg' := by
  have hS := hInv.sorted
  have hcA := hInv.cur_mem c hccur
  have hS' : (cfg.alive.erase c).Pairwise (· < ·) := sorted_erase hS
  obtain ⟨hlfS, hlfc⟩ := prevAlive_mem_lt hlf
  obtain ⟨hrtS, hcrt⟩ := nextAlive_mem_lt hrt
  have hlfne : lf ≠ c := ne_of_lt hlfc
  have hrtne : rt ≠ c := ne_of_gt hcrt
  have hlfS' : lf ∈ cfg.alive.erase c := (mem_erase_iff_of_sorted hS).mpr ⟨hlfS, hlfne⟩
  have hrtS' : rt ∈ cfg.alive.erase c := (mem_erase_iff_of_sorted hS).mpr ⟨hrtS, hrtne⟩
  have hnextlf : nextAlive cfg.alive lf = some c := nextAlive_of_prevAlive hS hcA hlf
  have hprevrt : prevAlive cfg.alive rt = some c := prevAlive_of_nextAlive hS hcA hrt
  have hE1 : nextAlive (cfg.alive.erase c) lf = some rt :=
    (nextAlive_erase_self hS hlf).trans hrt
  have hE2 : prevAlive (cfg.alive.erase c) rt = some lf :=
    (prevAlive_erase_self hS hrt).trans hlf
  have hE3 : ∀ i ∈ cfg.alive, i ≠ c → i ≠ lf →
      nextAlive (cfg.alive.erase c) i = nextAlive cfg.alive i := by
    intro i hiS hic hilf
    exact nextAlive_erase_other hS (nextAlive_ne_of_ne_prev hS hlf hiS hilf)
  have hE4 : ∀ i ∈ cfg.alive, i ≠ c → i ≠ rt →
      prevAlive (cfg.alive.erase c) i = prevAlive cfg.alive i := by
    intro i hiS hic hirt
    exact prevAlive_erase_other hS (prevAlive_ne_of_ne_next hS hrt hiS hirt)
  obtain ⟨u2a, u2r, u2c, u2f, u2d⟩ := update_error_ok hcfg2
  obtain ⟨u3a, u3r, u3c, u3f, u3d⟩ := update_error_ok hcfg3
  have halive2 : cfg2.alive = cfg.alive.erase c := u2a
  have halive3 : cfg3.alive = cfg.alive.erase c := u3a.trans halive2
  have hrd2 : cfg2.rightDel = cfg.rightDel := u2r
  have hrd3 : cfg3.rightDel = cfg.rightDel := u3r.trans hrd2
  have herr_other : ∀ j, j ≠ lf → j ≠ rt → cfg3.err j = cfg.err j := by
    intro j hjlf hjrt
    have h1 := update_error_err_of_ne hcfg2 hjlf
    have h2 := update_error_err_of_ne hcfg3 hjrt
    exact h2.trans h1
  have hlfrt : lf ≠ rt := ne_of_lt (lt_trans hlfc hcrt)
  have herr_lf_fresh : ∀ l0, prevAlive (cfg.alive.erase c) lf = some l0 →
      error (ents l0) (ents lf) (ents rt) = .ok (cfg3.err lf) := by
    intro l0 hl0
    have h3 : cfg3.err lf = cfg2.err lf := update_error_err_of_ne hcfg3 hlfrt
    rcases u2d with ⟨l', r', v, hl', hr', hv, he⟩ | ⟨hnone, he⟩
    · have hl'2 : prevAlive (cfg.alive.erase c) lf = some l' := hl'
      have hr'2 : nextAlive (cfg.alive.erase c) lf = some r' := hr'
      rw [hl0] at hl'2
      rw [hE1] at hr'2
      rw [Option.some.injEq] at hl'2 hr'2
      subst hl'2
      subst hr'2
      rw [h3, he, Function.update_same]
      exact hv
    · rcases hnone with h0 | h0
      · have h0' : prevAlive (cfg.alive.erase c) lf = none := h0
        rw [h0'] at hl0
        exact absurd hl0 (by simp)
      · have h0' : nextAlive (cfg.alive.erase c) lf = none := h0
        rw [hE1] at h0'
        exact absurd h0' (by simp)
  have herr_lf_end : prevAlive (cfg.alive.erase c) lf = none → cfg3.err lf = cfg.err lf := by
    intro h0
    have h3 : cfg3.err lf = cfg2.err lf := update_error_err_of_ne hcfg3 hlfrt
    rcases u2d with ⟨l', r', v, hl', hr', hv, he⟩ | ⟨_, he⟩
    · have hl'2 : prevAlive (cfg.alive.erase c) lf = some l' := hl'
      rw [h0] at hl'2
      exact absurd hl'2 (by simp)
    · rw [h3, he]
  have herr_rt_fresh : ∀ r0, nextAlive (cfg.alive.erase c) rt = some r0 →
      error (ents lf) (ents rt) (ents r0) = .ok (cfg3.err rt) := by
    intro r0 hr0
    rcases u3d with ⟨l', r', v, hl', hr', hv, he⟩ | ⟨hnone, he⟩
    · rw [halive2] at hl' hr'
      rw [hE2] at hl'
      rw [hr0] at hr'
      rw [Option.some.injEq] at hl' hr'
      subst hl'
      subst hr'
      rw [he, Function.update_same]
      exact hv
    · rw [halive2] at hnone
      rcases hnone with h0 | h0
      · rw [hE2] at h0
        exact absurd h0 (by simp)
      · rw [h0] at hr0
        exact absurd hr0 (by simp)
  have herr_rt_end : nextAlive (cfg.alive.erase c) rt = none → cfg3.err rt = cfg.err rt := by
    intro h0
    rcases u3d with ⟨l', r', v, hl', hr', hv, he⟩ | ⟨_, he⟩
    · rw [halive2, h0] at hr'
      exact absurd hr' (by simp)
    · rw [he]
      have h1 := update_error_err_of_ne hcfg2 (fun e => hlfrt e.symm)
      exact h1
  have hbel := cascadeLoop_false hcas
  have hfreshc := hInv.fresh c hcA lf rt hlf hrt
  have hcbelow : error (ents lf) (ents c) (ents rt) = .ok (cfg.err c) ∧ cfg.err c < tol :=
    ⟨hfreshc, not_le.mp hterr⟩
  refine ⟨?_, ?_, ?_, ?_, ?_, ?_, ?_, ?_, ?_, ?_, ?_, ?_⟩
  · rw [hA]
    exact hS'
  · intro i hi
    rw [hA, mem_erase_iff_of_sorted hS]
    refine ⟨hInv.first_mem i hi, ?_⟩
    intro e
    subst e
    rw [prevAlive_of_val_zero hi] at hlf
    exact absurd hlf (by simp)
  · intro i hi
    rw [hA, mem_erase_iff_of_sorted hS]
    refine ⟨hInv.last_mem i hi, ?_⟩
    intro e
    subst e
    rw [nextAlive_of_val_last hi] at hrt
    exact absurd hrt (by simp)
  · intro x hx
    rw [hA, mem_erase_iff_of_sorted hS]
    rcases hcur with hc' | hc' | ⟨fs, hfseq, hc'⟩ | hc'
    · rw [hc', Option.some.injEq] at hx
      subst hx
      exact ⟨hlfS, hlfne⟩
    · rw [hc', Option.some.injEq] at hx
      subst hx
      exact ⟨hrtS, hrtne⟩
    · rw [hc', Option.some.injEq] at hx
      subst hx
      exact ⟨hInv.fs_mem fs hfseq, ne_of_lt (hInv.fs_lt fs c hfseq hccur)⟩
    · rw [hc'] at hx
      exact absurd hx (by simp)
  · intro s hs
    rw [hfs] at hs
    exact absurd hs (by simp)
  · intro s x hs
    rw [hfs] at hs
    exact absurd hs (by simp)
  · intro i hi
    rw [hE]
    rcases eq_or_ne i lf with rfl | hilf
    · have h0 : prevAlive (cfg.alive.erase c) i = none := by
        cases hp : prevAlive (cfg.alive.erase c) i with
        | none => rfl
        | some l0 =>
          have := @prevAlive_of_val_zero _ (cfg.alive.erase c) _ hi
          rw [this] at hp
          exact absurd hp (by simp)
      rw [herr_lf_end h0]
      exact hInv.first_err i hi
    · rcases eq_or_ne i rt with rfl | hirt
      · have hz := @prevAlive_of_val_zero _ cfg.alive _ hi
        rw [hz] at hprevrt
        exact absurd hprevrt (by simp)
      · rw [herr_other i hilf hirt]
        exact hInv.first_err i hi
  · intro i hi
    rw [hE]
    rcases eq_or_ne i rt with rfl | hirt
    · have h0 : nextAlive (cfg.alive.erase c) i = none := nextAlive_of_val_last hi
      rw [herr_rt_end h0]
      exact hInv.last_err i hi
    · rcases eq_or_ne i lf with rfl | hilf
      · have hz := @nextAlive_of_val_last _ cfg.alive _ hi
        rw [hz] at hnextlf
        exact absurd hnextlf (by simp)
      · rw [herr_other i hilf hirt]
        exact hInv.last_err i hi
  · intro i hiA l r hl hr
    rw [hE]
    rw [hA] at hiA hl hr
    have hiS : i ∈ cfg.alive := ((mem_erase_iff_of_sorted hS).mp hiA).1
    have hic : i ≠ c := ((mem_erase_iff_of_sorted hS).mp hiA).2
    rcases eq_or_ne i lf with rfl | hilf
    · rw [hE1] at hr
      rw [Option.some.injEq] at hr
      subst hr
      exact herr_lf_fresh l hl
    · rcases eq_or_ne i rt with rfl | hirt
      · rw [hE2] at hl
        rw [Option.some.injEq] at hl
        subst hl
        exact herr_rt_fresh r hr
      · rw [hE3 i hiS hic hilf] at hr
        rw [hE4 i hiS hic hirt] at hl
        rw [herr_other i hilf hirt]
        exact hInv.fresh i hiS l r hl hr
  · intro e heA d hd
    rw [hA] at heA ⊢
    rw [hR] at hd
    have heS : e ∈ cfg.alive := ((mem_erase_iff_of_sorted hS).mp heA).1
    have hec : e ≠ c := ((mem_erase_iff_of_sorted hS).mp heA).2
    rcases eq_or_ne e lf with rfl | helf
    · rw [Function.update_same, hrd3] at hd
      rw [List.mem_append] at hd
      rcases hd with hd | hd
      · rw [List.mem_append] at hd
        rcases hd with hd | hd
        · obtain ⟨hdd, hed, hdr⟩ := hInv.rd_sub e heS d hd
          have hdc : d < c := by
            have := hdr c hnextlf
            exact this
          refine ⟨?_, hed, ?_⟩
          · rw [mem_erase_iff_of_sorted hS]
            intro hmem
            exact hdd hmem.1
          · intro r hr
            rw [hE1] at hr
            rw [Option.some.injEq] at hr
            subst hr
            exact lt_trans hdc hcrt
        · obtain ⟨hdd, hcd, hdr⟩ := hInv.rd_sub c hcA d hd
          refine ⟨?_, lt_trans hlfc hcd, ?_⟩
          · rw [mem_erase_iff_of_sorted hS]
            intro hmem
            exact hdd hmem.1
          · intro r hr
            rw [hE1] at hr
            rw [Option.some.injEq] at hr
            subst hr
            exact hdr rt hrt
      · rw [List.mem_singleton] at hd
        subst hd
        refine ⟨?_, hlfc, ?_⟩
        · rw [mem_erase_iff_of_sorted hS]
          intro hmem
          exact hmem.2 rfl
        · intro r hr
          rw [hE1] at hr
          rw [Option.some.injEq] at hr
          subst hr
          exact hcrt
    · rw [Function.update_noteq helf, hrd3] at hd
      obtain ⟨hdd, hed, hdr⟩ := hInv.rd_sub e heS d hd
      refine ⟨?_, hed, ?_⟩
      · rw [mem_erase_iff_of_sorted hS]
        intro hmem
        exact hdd hmem.1
      · intro r hr
        rw [hE3 e heS hec helf] at hr
        exact hdr r hr
  · intro d hdA
    rw [hA] at hdA
    rcases eq_or_ne d c with rfl | hdc
    · refine ⟨lf, ?_, ?_⟩
      · rw [hA]
        exact hlfS'
      · rw [hR, Function.update_same, List.mem_append]
        exact Or.inr (List.mem_singleton.mpr rfl)
    · have hdS : d ∉ cfg.alive := by
        intro hmem
        exact hdA ((mem_erase_iff_of_sorted hS).mpr ⟨hmem, hdc⟩)
      obtain ⟨e, heS, hde⟩ := hInv.rd_full d hdS
      rcases eq_or_ne e c with rfl | hec
      · refine ⟨lf, ?_, ?_⟩
        · rw [hA]
          exact hlfS'
        · rw [hR, Function.update_same, hrd3, List.mem_append]
          exact Or.inl (List.mem_append.mpr (Or.inr hde))
      · refine ⟨e, ?_, ?_⟩
        · rw [hA]
          exact (mem_erase_iff_of_sorted hS).mpr ⟨heS, hec⟩
        · rcases eq_or_ne e lf with rfl | helf
          · rw [hR, Function.update_same, hrd3, List.mem_append]
            exact Or.inl (List.mem_append.mpr (Or.inl hde))
          · rw [hR, Function.update_noteq helf, hrd3]
            exact hde
  · intro e heA d hd r hr
    rw [hA] at heA hr
    rw [hR] at hd
    have heS : e ∈ cfg.alive := ((mem_erase_iff_of_sorted hS).mp heA).1
    have hec : e ≠ c := ((mem_erase_iff_of_sorted hS).mp heA).2
    rcases eq_or_ne e lf with rfl | helf
    · rw [hE1] at hr
      rw [Option.some.injEq] at hr
      subst hr
      rw [Function.update_same, hrd3] at hd
      rw [List.mem_append] at hd
      rcases hd with hd | hd
      · obtain ⟨rt', v, heq, hv, hvt⟩ := hbel d hd
        rw [Option.some.injEq] at heq
        subst heq
        exact ⟨v, hv, hvt⟩
      · rw [List.mem_singleton] at hd
        subst hd
        exact ⟨cfg.err d, hcbelow.1, hcbelow.2⟩
    · rw [Function.update_noteq helf, hrd3] at hd
      rw [hE3 e heS hec helf] at hr
      exact hInv.below e heS d hd r hr

/-- The loop invariant is preserved by every successful iteration. -/
theorem stepOnce_inv {n : Nat} {ents : Fin n → MapEntryData} {tol : ℚ} {cfg : Cfg n}
    {c : Fin n} {cfg' : Cfg n} (hInv : Inv ents tol cfg) (hccur : cfg.cur = some c)
    (h : stepOnce ents tol cfg c = .ok cfg') : Inv ents tol cfg' := by
  rcases stepOnce_ok_cases h with ⟨h1, he⟩ | ⟨h1, he⟩ | ⟨h1, he, lf, hlf, hcas⟩ |
    ⟨lf, rt, cfg2, cfg3, h1, hlf, hrt, hcas, hcfg2, hcfg3, hout⟩
  · subst he
    refine ⟨hInv.sorted, hInv.first_mem, hInv.last_mem, ?_, hInv.fs_mem, ?_, hInv.first_err,
      hInv.last_err, hInv.fresh, hInv.rd_sub, hInv.rd_full, hInv.below⟩
    · intro x hx
      exact (nextAlive_mem_lt hx).1
    · intro s x hs hx
      exact lt_trans (hInv.fs_lt s c hs hccur) (nextAlive_mem_lt hx).2
  · subst he
    refine ⟨hInv.sorted, hInv.first_mem, hInv.last_mem, ?_, ?_, ?_, hInv.first_err,
      hInv.last_err, hInv.fresh, hInv.rd_sub, hInv.rd_full, hInv.below⟩
    · intro x hx
      exact (nextAlive_mem_lt hx).1
    · intro s hs
      cases hfs0 : cfg.firstSkipped with
      | none =>
        rw [hfs0] at hs
        simp only [Option.some.injEq] at hs
        rw [← hs]
        exact hInv.cur_mem c hccur
      | some s0 =>
        rw [hfs0] at hs
        simp only [Option.some.injEq] at hs
        rw [← hs]
        exact hInv.fs_mem s0 hfs0
    · intro s x hs hx
      cases hfs0 : cfg.firstSkipped with
      | none =>
        rw [hfs0] at hs
        simp only [Option.some.injEq] at hs
        rw [← hs]
        exact (nextAlive_mem_lt hx).2
      | some s0 =>
        rw [hfs0] at hs
        simp only [Option.some.injEq] at hs
        rw [← hs]
        exact lt_trans (hInv.fs_lt s0 c hfs0 hccur) (nextAlive_mem_lt hx).2
  · subst he
    refine ⟨hInv.sorted, hInv.first_mem, hInv.last_mem, ?_, hInv.fs_mem, ?_, hInv.first_err,
      hInv.last_err, hInv.fresh, hInv.rd_sub, hInv.rd_full, hInv.below⟩
    · intro x hx
      exact (nextAlive_mem_lt hx).1
    · intro s x hs hx
      exact lt_trans (hInv.fs_lt s c hs hccur) (nextAlive_mem_lt hx).2
  · have hA3 : cfg3.alive = cfg.alive.erase c := by
      have u2 := (update_error_ok hcfg2).1
      have u3 := (update_error_ok hcfg3).1
      rw [u3, u2]
    have hfs3 : cfg3.firstSkipped = cfg.firstSkipped := by
      have u2 := (update_error_ok hcfg2).2.2.2.1
      have u3 := (update_error_ok hcfg3).2.2.2.1
      rw [u3, u2]
    rcases hout with ⟨fs, hfseq, he⟩ | ⟨hfs0, hlt, he⟩ | ⟨hfs0, hlt, he⟩
    · subst he
      exact delete_inv hInv hccur h1 hlf hrt hcas hcfg2 hcfg3 hA3 rfl rfl rfl
        (Or.inr (Or.inr (Or.inl ⟨fs, hfseq, rfl⟩)))
    · subst he
      exact delete_inv hInv hccur h1 hlf hrt hcas hcfg2 hcfg3 hA3 rfl rfl
        (hfs3.trans hfs0) (Or.inl rfl)
    · subst he
      exact delete_inv hInv hccur h1 hlf hrt hcas hcfg2 hcfg3 hA3 rfl rfl
        (hfs3.trans hfs0) (Or.inr (Or.inl rfl))

/-- The loop invariant is preserved by any number of iterations. -/
theorem runN_inv {n : Nat} {ents : Fin n → MapEntryData} {tol : ℚ} :
    ∀ (k : Nat) {cfg f : Cfg n}, Inv ents tol cfg → runN ents tol k cfg = .ok f →
      Inv ents tol f := by
  intro k
  induction k with
  | zero =>
    intro cfg f hInv h
    unfold runN at h
    rw [Except.ok.injEq] at h
    exact h ▸ hInv
  | succ k ih =>
    intro cfg f hInv h
    unfold runN at h
    split at h
    · rw [Except.ok.injEq] at h
      exact h ▸ hInv
    next c hc =>
      split at h
      · exact absurd h (by simp)
      next cfg1 hstep => exact ih (stepOnce_inv hInv hc hstep) h

/-- The state produced by `main`'s initial error sweep satisfies the loop
invariant. -/
theorem initCfg_inv {n : Nat} {ents : Fin n → MapEntryData} (tol : ℚ) {c0 : Cfg n}
    (h : initCfg ents = .ok c0) : Inv ents tol c0 := by
  unfold initCfg at h
  obtain ⟨ha, hr, hc, hf, hout, hfresh, hend⟩ := initPass_ok (List.nodup_finRange n) h
  have ha' : c0.alive = List.finRange n := ha
  have hr' : c0.rightDel = fun _ => ([] : List (Fin n)) := hr
  have hf' : c0.firstSkipped = none := hf
  refine ⟨?_, ?_, ?_, ?_, ?_, ?_, ?_, ?_, ?_, ?_, ?_, ?_⟩
  · rw [ha']
    exact List.pairwise_lt_finRange n
  · intro i _
    rw [ha']
    exact List.mem_finRange i
  · intro i _
    rw [ha']
    exact List.mem_finRange i
  · intro c _
    rw [ha']
    exact List.mem_finRange c
  · intro s hs
    rw [hf'] at hs
    exact absurd hs (by simp)
  · intro s x hs _
    rw [hf'] at hs
    exact absurd hs (by simp)
  · intro i hi
    exact hend i (List.mem_finRange i) (Or.inl (prevAlive_of_val_zero hi))
  · intro i hi
    exact hend i (List.mem_finRange i) (Or.inr (nextAlive_of_val_last hi))
  · intro i hiA l r hl hr
    rw [ha'] at hl hr
    exact hfresh i (List.mem_finRange i) l r hl hr
  · intro e _ d hd
    rw [hr'] at hd
    exact absurd hd (by simp)
  · intro d hd
    rw [ha'] at hd
    exact absurd (List.mem_finRange d) hd
  · intro e _ d hd
    rw [hr'] at hd
    exact absurd hd (by simp)

/-! Termination. -/

theorem filter_lt_length_lt {n : Nat} {S : List (Fin n)} (_hS : S.Pairwise (· < ·))
    {c rt : Fin n} (_hc : c ∈ S) (hrt : nextAlive S c = some rt) :
    (S.filter (fun j => decide (rt < j))).length <
      (S.filter (fun j => decide (c < j))).length := by
  have hsub : List.Sublist (S.filter (fun j => decide (rt < j)))
      (S.filter (fun j => decide (c < j))) := by
    apply List.monotone_filter_right
    intro a ha
    have h1 : rt < a := of_decide_eq_true ha
    exact decide_eq_true (lt_trans (nextAlive_mem_lt hrt).2 h1)
  rcases lt_or_eq_of_le hsub.length_le with h | h
  · exact h
  · exfalso
    have heq := hsub.eq_of_length h
    have hrtmem : rt ∈ S.filter (fun j => decide (c < j)) := by
      rw [List.mem_filter]
      exact ⟨(nextAlive_mem_lt hrt).1, decide_eq_true (nextAlive_mem_lt hrt).2⟩
    rw [← heq, List.mem_filter] at hrtmem
    exact absurd (of_decide_eq_true hrtmem.2) (lt_irrefl rt)

theorem mu_advance {n : Nat} {cfg : Cfg n} {c : Fin n} (hS : cfg.alive.Pairwise (· < ·))
    (hcA : c ∈ cfg.alive) (hccur : cfg.cur = some c) {cfg' : Cfg n}
    (hA : cfg'.alive = cfg.alive) (hc' : cfg'.cur = nextAlive cfg.alive c) :
    mu cfg' < mu cfg := by
  unfold mu restCount
  rw [hA, hccur, hc']
  cases hx : nextAlive cfg.alive c with
  | none =>
    dsimp only
    omega
  | some rt =>
    have h1 := filter_lt_length_lt hS hcA hx
    dsimp only
    omega

theorem mu_delete {n : Nat} {cfg : Cfg n} {c : Fin n} (hS : cfg.alive.Pairwise (· < ·))
    (hcA : c ∈ cfg.alive) (hccur : cfg.cur = some c) {cfg' : Cfg n}
    (hA : cfg'.alive = cfg.alive.erase c) : mu cfg' < mu cfg := by
  unfold mu restCount
  rw [hA, hccur]
  dsimp only
  have hlen : (cfg.alive.erase c).length = cfg.alive.length - 1 :=
    List.length_erase_of_mem hcA
  have hL1 : 0 < cfg.alive.length := List.length_pos_of_mem hcA
  have hLn : cfg.alive.length ≤ n := by
    have h1 := (sorted_nodup hS).length_le_card
    rw [Fintype.card_fin] at h1
    exact h1
  have hr' : (match cfg'.cur with
      | none => 0
      | some c' => ((cfg.alive.erase c).filter (fun j => decide (c' < j))).length + 1) ≤
        (cfg.alive.erase c).length + 1 := by
    cases cfg'.cur with
    | none => dsimp only; omega
    | some c' =>
      have hb := List.length_filter_le (fun j => decide (c' < j)) (cfg.alive.erase c)
      dsimp only
      omega
  have key : (cfg.alive.erase c).length * (n + 1) + ((cfg.alive.erase c).length + 1) ≤
      cfg.alive.length * (n + 1) := by
    have h2 : (cfg.alive.erase c).length + 1 = cfg.alive.length := by omega
    calc (cfg.alive.erase c).length * (n + 1) + ((cfg.alive.erase c).length + 1)
        ≤ (cfg.alive.erase c).length * (n + 1) + (n + 1) := by
          have h3 : (cfg.alive.erase c).length + 1 ≤ n + 1 := by omega
          omega
      _ = ((cfg.alive.erase c).length + 1) * (n + 1) := by rw [Nat.succ_mul]
      _ = cfg.alive.length * (n + 1) := by rw [h2]
  omega

/-- Every successful iteration decreases the termination measure. -/
theorem stepOnce_mu {n : Nat} {ents : Fin n → MapEntryData} {tol : ℚ} {cfg : Cfg n}
    {c : Fin n} {cfg1 : Cfg n} (hInv : Inv ents tol cfg) (hc : cfg.cur = some c)
    (hstep : stepOnce ents tol cfg c = .ok cfg1) : mu cfg1 < mu cfg := by
  rcases stepOnce_ok_cases hstep with ⟨_, he⟩ | ⟨_, he⟩ | ⟨_, he, _⟩ |
    ⟨lf, rt, cfg2, cfg3, _, hlf, hrt, _, hcfg2, hcfg3, hout⟩
  · subst he
    exact mu_advance hInv.sorted (hInv.cur_mem c hc) hc rfl rfl
  · subst he
    exact mu_advance hInv.sorted (hInv.cur_mem c hc) hc rfl rfl
  · subst he
    exact mu_advance hInv.sorted (hInv.cur_mem c hc) hc rfl rfl
  · have hA3 : cfg3.alive = cfg.alive.erase c := by
      have u2 := (update_error_ok hcfg2).1
      have u3 := (update_error_ok hcfg3).1
      rw [u3, u2]
    rcases hout with ⟨fs, _, he⟩ | ⟨_, _, he⟩ | ⟨_, _, he⟩ <;>
      (subst he; exact mu_delete hInv.sorted (hInv.cur_mem c hc) hc hA3)

theorem runN_cur_none {n : Nat} {ents : Fin n → MapEntryData} {tol : ℚ} :
    ∀ (k : Nat) {cfg f : Cfg n}, Inv ents tol cfg → mu cfg < k →
      runN ents tol k cfg = .ok f → f.cur = none := by
  intro k
  induction k with
  | zero =>
    intro cfg f _ hmu _
    omega
  | succ k ih =>
    intro cfg f hInv hmu h
    unfold runN at h
    split at h
    next hc =>
      rw [Except.ok.injEq] at h
      rw [← h]
      exact hc
    next c hc =>
      split at h
      · exact absurd h (by simp)
      next cfg1 hstep =>
        have hmu1 : mu cfg1 < mu cfg := stepOnce_mu hInv hc hstep
        exact ih (stepOnce_inv hInv hc hstep) (by omega) h

theorem mu_init_lt {n : Nat} {c0 : Cfg n} (h0 : c0.alive = List.finRange n) :
    mu c0 < fuelBound n := by
  unfold mu restCount fuelBound
  have hlen : c0.alive.length = n := by
    rw [h0]
    exact List.length_finRange n
  have hsucc : (n + 1) * (n + 1) = n * (n + 1) + (n + 1) := Nat.succ_mul n (n + 1)
  cases hx : c0.cur with
  | none =>
    dsimp only
    rw [hlen]
    omega
  | some c =>
    have hb := List.length_filter_le (fun j => decide (c < j)) c0.alive
    rw [hlen] at hb
    dsimp only
    rw [hlen]
    omega

/-! Crash-freedom. -/

theorem error_isOk {l t r : MapEntryData} (hp : l.physPos ≠ r.physPos)
    (hm : (l.genetPos2 = none ∧ r.genetPos2 = none) ∨
      (l.genetPos2 ≠ none ∧ r.genetPos2 ≠ none ∧ t.genetPos2 ≠ none)) :
    ∃ v, error l t r = .ok v := by
  have hne : ¬ ((r.physPos : ℚ) - (l.physPos : ℚ) = 0) := by
    intro h
    apply hp
    have h2 : (l.physPos : ℚ) = (r.physPos : ℚ) := by linarith
    exact_mod_cast h2
  cases hv : error l t r with
  | ok v => exact ⟨v, rfl⟩
  | error cr =>
    exfalso
    revert hv
    unfold error
    rw [if_neg hne]
    rcases hm with ⟨hl, hr⟩ | ⟨hl, hr, ht⟩
    · rw [hl, hr]
      simp
    · rcases Option.ne_none_iff_exists'.mp hl with ⟨gl, hgl⟩
      rcases Option.ne_none_iff_exists'.mp hr with ⟨gr, hgr⟩
      rcases Option.ne_none_iff_exists'.mp ht with ⟨gt, hgt⟩
      rw [hgl, hgr, hgt]
      simp

theorem error_ok_of_lt {n : Nat} {ents : Fin n → MapEntryData} (hmono : PhysSorted ents)
    (hmode : UniformMode ents) {a t b : Fin n} (hab : a < b) :
    ∃ v, error (ents a) (ents t) (ents b) = .ok v := by
  refine error_isOk (ne_of_lt (hmono a b hab)) ?_
  rcases hmode with h | h
  · exact Or.inl ⟨h a, h b⟩
  · exact Or.inr ⟨h a, h b, h t⟩

theorem update_error_isOk {n : Nat} {ents : Fin n → MapEntryData} {cfg : Cfg n} {i : Fin n}
    (hok : ∀ l r, prevAlive cfg.alive i = some l → nextAlive cfg.alive i = some r →
      ∃ v, error (ents l) (ents i) (ents r) = .ok v) :
    ∃ cfg', update_error ents cfg i = .ok cfg' := by
  unfold update_error
  cases hl : prevAlive cfg.alive i with
  | none => exact ⟨cfg, rfl⟩
  | some l =>
    cases hr : nextAlive cfg.alive i with
    | none => exact ⟨cfg, rfl⟩
    | some r =>
      obtain ⟨v, hv⟩ := hok l r hl hr
      dsimp only
      rw [hv]
      exact ⟨_, rfl⟩

theorem stepOnce_isOk {n : Nat} {ents : Fin n → MapEntryData} {tol : ℚ} {cfg : Cfg n}
    {c : Fin n} (hInv : Inv ents tol cfg) (hmono : PhysSorted ents)
    (hmode : UniformMode ents) (htol : tol ≤ 10000) (_hccur : cfg.cur = some c) :
    ∃ cfg', stepOnce ents tol cfg c = .ok cfg' := by
  simp only [stepOnce]
  by_cases h1 : tol ≤ cfg.err c
  · rw [if_pos h1]
    exact ⟨_, rfl⟩
  · rw [if_neg h1]
    split
    · exact ⟨_, rfl⟩
    · cases hl : prevAlive cfg.alive c with
      | none =>
        exfalso
        have h0 : c.val = 0 := val_zero_of_prevAlive_none hl hInv.first_mem
        rw [hInv.first_err c h0] at h1
        exact h1 htol
      | some lf =>
        cases hr : nextAlive cfg.alive c with
        | none =>
          exfalso
          have h0 : c.val = n - 1 := val_last_of_nextAlive_none hr hInv.last_mem
          rw [hInv.last_err c h0] at h1
          exact h1 htol
        | some rt =>
          dsimp only
          have hlfc : lf < c := (prevAlive_mem_lt hl).2
          have hcrt : c < rt := (nextAlive_mem_lt hr).2
          obtain ⟨b, hb⟩ := cascadeLoop_isOk
            (fun d _ => error_ok_of_lt hmono hmode (lt_trans hlfc hcrt))
          rw [hb]
          cases b with
          | true => exact ⟨_, rfl⟩
          | false =>
            dsimp only
            obtain ⟨cfg2, hu2⟩ := update_error_isOk
              (fun l' r' hl' hr' => error_ok_of_lt hmono hmode
                (lt_trans (prevAlive_mem_lt hl').2 (nextAlive_mem_lt hr').2))
            rw [hu2]
            dsimp only
            obtain ⟨cfg3, hu3⟩ := update_error_isOk
              (fun l' r' hl' hr' => error_ok_of_lt hmono hmode
                (lt_trans (prevAlive_mem_lt hl').2 (nextAlive_mem_lt hr').2))
            rw [hu3]
            dsimp only
            cases cfg.firstSkipped with
            | some fs => exact ⟨_, rfl⟩
            | none =>
              by_cases h5 : cfg3.err lf < tol
              · rw [if_pos h5]
                exact ⟨_, rfl⟩
              · rw [if_neg h5]
                exact ⟨_, rfl⟩

theorem initPass_isOk {n : Nat} {ents : Fin n → MapEntryData} (hmono : PhysSorted ents)
    (hmode : UniformMode ents) :
    ∀ (L : List (Fin n)) (cfg : Cfg n), ∃ cfg', initPass ents cfg L = .ok cfg' := by
  intro L
  induction L with
  | nil =>
    intro cfg
    exact ⟨cfg, rfl⟩
  | cons a L ih =>
    intro cfg
    obtain ⟨cfg1, h1⟩ := @update_error_isOk _ _ cfg a
      (fun l' r' hl' hr' => error_ok_of_lt hmono hmode
        (lt_trans (prevAlive_mem_lt hl').2 (nextAlive_mem_lt hr').2))
    unfold initPass
    rw [h1]
    exact ih cfg1

theorem runN_completes {n : Nat} {ents : Fin n → MapEntryData} {tol : ℚ}
    (hmono : PhysSorted ents) (hmode : UniformMode ents) (htol : tol ≤ 10000) :
    ∀ (k : Nat) {cfg : Cfg n}, Inv ents tol cfg → mu cfg < k →
      ∃ f, runN ents tol k cfg = .ok f ∧ f.cur = none := by
  intro k
  induction k with
  | zero =>
    intro cfg _ hmu
    omega
  | succ k ih =>
    intro cfg hInv hmu
    unfold runN
    cases hc : cfg.cur with
    | none => exact ⟨cfg, rfl, hc⟩
    | some c =>
      obtain ⟨cfg1, hstep⟩ := stepOnce_isOk hInv hmono hmode htol hc
      dsimp only
      rw [hstep]
      have hmu1 : mu cfg1 < mu cfg := stepOnce_mu hInv hc hstep
      exact ih (stepOnce_inv hInv hc hstep) (by omega)

theorem stepOnce_ne_attrNone {n : Nat} {ents : Fin n → MapEntryData} {tol : ℚ} {cfg : Cfg n}
    {c : Fin n} (hInv : Inv ents tol cfg) (htol : tol ≤ 10000) (_hccur : cfg.cur = some c) :
    stepOnce ents tol cfg c ≠ .error .attrNone := by
  intro hcontra
  simp only [stepOnce] at hcontra
  by_cases h1 : tol ≤ cfg.err c
  · rw [if_pos h1] at hcontra
    exact absurd hcontra (by simp)
  · rw [if_neg h1] at hcontra
    split at hcontra
    · exact absurd hcontra (by simp)
    · split at hcontra
      next hlnone =>
        have h0 : c.val = 0 := val_zero_of_prevAlive_none hlnone hInv.first_mem
        rw [hInv.first_err c h0] at h1
        exact h1 htol
      next lf hlf =>
        split at hcontra
        next cr hcr =>
          cases hr : nextAlive cfg.alive c with
          | none =>
            have h0 : c.val = n - 1 := val_last_of_nextAlive_none hr hInv.last_mem
            rw [hInv.last_err c h0] at h1
            exact h1 htol
          | some rt =>
            rw [hr] at hcr
            simp only [Except.error.injEq] at hcontra
            exact cascadeLoop_ne_attrNone (hcontra ▸ hcr)
        next => exact absurd hcontra (by simp)
        next hcas =>
          split at hcontra
          next hrnone =>
            have h0 : c.val = n - 1 := val_last_of_nextAlive_none hrnone hInv.last_mem
            rw [hInv.last_err c h0] at h1
            exact h1 htol
          next rt hrt =>
            split at hcontra
            next cr hcr =>
              simp only [Except.error.injEq] at hcontra
              exact update_error_ne_attrNone (hcontra ▸ hcr)
            next cfg2 hcfg2 =>
              split at hcontra
              next cr hcr =>
                simp only [Except.error.injEq] at hcontra
                exact update_error_ne_attrNone (hcontra ▸ hcr)
              next cfg3 hcfg3 =>
                split at hcontra
                · exact absurd hcontra (by simp)
                · split at hcontra
                  · exact absurd hcontra (by simp)
                  · exact absurd hcontra (by simp)

theorem initPass_ne_attrNone {n : Nat} {ents : Fin n → MapEntryData} :
    ∀ (L : List (Fin n)) (cfg : Cfg n), initPass ents cfg L ≠ .error .attrNone := by
  intro L
  induction L with
  | nil =>
    intro cfg
    simp [initPass]
  | cons a L ih =>
    intro cfg
    unfold initPass
    cases hu : update_error ents cfg a with
    | error cr =>
      dsimp only
      intro hcontra
      simp only [Except.error.injEq] at hcontra
      exact update_error_ne_attrNone (hcontra ▸ hu)
    | ok cfg1 =>
      dsimp only
      exact ih cfg1

theorem runN_ne_attrNone {n : Nat} {ents : Fin n → MapEntryData} {tol : ℚ}
    (htol : tol ≤ 10000) :
    ∀ (k : Nat) {cfg : Cfg n}, Inv ents tol cfg → runN ents tol k cfg ≠ .error .attrNone := by
  intro k
  induction k with
  | zero =>
    intro cfg _
    simp [runN]
  | succ k ih =>
    intro cfg hInv
    unfold runN
    cases hc : cfg.cur with
    | none =>
      dsimp only
      simp
    | some c =>
      dsimp only
      cases hstep : stepOnce ents tol cfg c with
      | error cr =>
        dsimp only
        intro hcontra
        simp only [Except.error.injEq] at hcontra
        exact stepOnce_ne_attrNone hInv htol hc (hcontra ▸ hstep)
      | ok cfg1 =>
        dsimp only
        exact ih (stepOnce_inv hInv hc hstep)

theorem stepOnce_rd_mono {n : Nat} {ents : Fin n → MapEntryData} {tol : ℚ} {cfg : Cfg n}
    {c : Fin n} {cfg' : Cfg n} (h : stepOnce ents tol cfg c = .ok cfg') :
    ∀ i d, d ∈ cfg.rightDel i → d ∈ cfg'.rightDel i := by
  rcases stepOnce_ok_cases h with ⟨_, he⟩ | ⟨_, he⟩ | ⟨_, he, _⟩ |
    ⟨lf, rt, cfg2, cfg3, _, _, _, _, hcfg2, hcfg3, hout⟩
  · subst he
    exact fun i d hd => hd
  · subst he
    exact fun i d hd => hd
  · subst he
    exact fun i d hd => hd
  · have hrd3 : cfg3.rightDel = cfg.rightDel := by
      have u2 : cfg2.rightDel = cfg.rightDel := (update_error_ok hcfg2).2.1
      have u3 := (update_error_ok hcfg3).2.1
      rw [u3, u2]
    have key : ∀ i d, d ∈ cfg.rightDel i →
        d ∈ (Function.update cfg3.rightDel lf
          ((cfg3.rightDel lf ++ cfg3.rightDel c) ++ [c])) i := by
      intro i d hd
      rcases eq_or_ne i lf with rfl | hne
      · rw [Function.update_same, hrd3]
        exact List.mem_append.mpr (Or.inl (List.mem_append.mpr (Or.inl hd)))
      · rw [Function.update_noteq hne, hrd3]
        exact hd
    rcases hout with ⟨fs, _, he⟩ | ⟨_, _, he⟩ | ⟨_, _, he⟩ <;> subst he <;> exact key

theorem runN_rd_mono {n : Nat} {ents : Fin n → MapEntryData} {tol : ℚ} :
    ∀ (k : Nat) {cfg f : Cfg n}, runN ents tol k cfg = .ok f →
      ∀ i d, d ∈ cfg.rightDel i → d ∈ f.rightDel i := by
  intro k
  induction k with
  | zero =>
    intro cfg f h
    unfold runN at h
    rw [Except.ok.injEq] at h
    rw [← h]
    exact fun i d hd => hd
  | succ k ih =>
    intro cfg f h
    unfold runN at h
    split at h
    · rw [Except.ok.injEq] at h
      rw [← h]
      exact fun i d hd => hd
    next c hc =>
      split at h
      · exact absurd h (by simp)
      next cfg1 hstep =>
        exact fun i d hd => ih h i d (stepOnce_rd_mono hstep i d hd)

theorem runN_succ_cur {n : Nat} {ents : Fin n → MapEntryData} {tol : ℚ} {k : Nat}
    {cfg : Cfg n} {c : Fin n} (hc : cfg.cur = some c) :
    runN ents tol (k + 1) cfg =
      (match stepOnce ents tol cfg c with
       | .error cr => .error cr
       | .ok cfg' => runN ents tol k cfg') := by
  conv_lhs => rw [runN]
  rw [hc]

theorem exists_ok_of_map {ε α β : Type} {x : Except ε α} {g : α → β} {b : β}
    (h : x.map g = .ok b) : ∃ a, x = .ok a ∧ g a = b := by
  cases x with
  | error e => simp [Except.map] at h
  | ok a =>
    simp only [Except.map, Except.ok.injEq] at h
    exact ⟨a, rfl, h⟩

theorem error_of_map_error {ε α β : Type} {x : Except ε α} {g : α → β} {cr : ε}
    (h : x.map g = .error cr) : x = .error cr := by
  cases x with
  | error e => simpa [Except.map] using h
  | ok a => simp [Except.map] at h

/-- Claim C1: for a strictly increasing input, whenever the whole reduction
completes, every removed entry, re-interpolated by the `error` function from
its final surviving neighbors in the output map, has error strictly below
the tolerance. -/
theorem C1_tolerance_guarantee {n : Nat} (ents : Fin n → MapEntryData) (tol : ℚ)
    (_hmono : PhysSorted ents) (f : Cfg n) (hrun : runFull ents tol = .ok f)
    (d : Fin n) (hd : d ∉ f.alive) :
    ∃ l r v, prevAlive f.alive d = some l ∧ nextAlive f.alive d = some r ∧
      error (ents l) (ents d) (ents r) = .ok v ∧ v < tol := by
  unfold runFull at hrun
  split at hrun
  · exact absurd hrun (by simp)
  next c0 h0 =>
    have hInvF := runN_inv (fuelBound n) (initCfg_inv tol h0) hrun
    obtain ⟨e, heA, hde⟩ := hInvF.rd_full d hd
    obtain ⟨_, hed, hupper⟩ := hInvF.rd_sub e heA d hde
    have hne : e.val ≠ n - 1 := by
      have hdn := d.isLt
      rw [Fin.lt_def] at hed
      omega
    obtain ⟨r, hr⟩ := nextAlive_isSome_of_ne_last heA hInvF.last_mem hne
    have hdr : d < r := hupper r hr
    obtain ⟨v, hv, hvt⟩ := hInvF.below e heA d hde r hr
    obtain ⟨hprev, hnext⟩ := nav_of_gap hInvF.sorted heA hed hr hdr
    exact ⟨e, r, v, hprev, hnext, hv, hvt⟩

/-- Witness for C1: in the worked scenario the deleted entry at position 100
reconstructs from the surviving neighbors 1 and 400 with error below
`0.02`. -/
theorem C1_tolerance_guarantee_witness :
    ∃ v, error (scenarioEnts 0) (scenarioEnts 1) (scenarioEnts 4) = .ok v ∧ v < 1/50 := by
  have hiso : (runFull scenarioEnts (1/50)).map (fun f => f.alive) =
      .ok [(0 : Fin 5), 4] := by decide
  obtain ⟨f, hrun, halive⟩ := exists_ok_of_map hiso
  have hd : (1 : Fin 5) ∉ f.alive := by
    rw [halive]
    decide
  obtain ⟨l, r, v, hl, hr, hv, hvt⟩ :=
    C1_tolerance_guarantee scenarioEnts (1/50) (by unfold PhysSorted; decide) f hrun 1 hd
  rw [halive] at hl hr
  have hl0 : prevAlive [(0 : Fin 5), 4] 1 = some 0 := by decide
  have hr0 : nextAlive [(0 : Fin 5), 4] 1 = some 4 := by decide
  rw [hl0, Option.some.injEq] at hl
  rw [hr0, Option.some.injEq] at hr
  subst hl
  subst hr
  exact ⟨v, hv, hvt⟩

/-- Claim C3 (amended): the reducer never deletes the first or the last
entry: after any number of loop iterations that complete without a crash,
both are still in the chain (so they are in the output whenever the run
completes; for tolerances above the 10000 sentinel the run may instead crash
and produce no output at all). -/
theorem C3_endpoints {n : Nat} (ents : Fin n → MapEntryData) (tol : ℚ) (k : Nat)
    {c0 f : Cfg n} (h0 : initCfg ents = .ok c0) (hrun : runN ents tol k c0 = .ok f)
    (i : Fin n) (hi : i.val = 0 ∨ i.val = n - 1) : i ∈ f.alive := by
  have hInv := runN_inv k (initCfg_inv tol h0) hrun
  rcases hi with hi | hi
  · exact hInv.first_mem i hi
  · exact hInv.last_mem i hi

/-- Claim C3, counterexample: with tolerance `10001 > 10000` the two-row
input makes the reducer dereference the head's missing left neighbor; the
run aborts and there is no output map containing the endpoints. -/
theorem C3_endpoints_counterexample :
    runFull twoEnts 10001 = .error .attrNone :=
  error_of_map_error
    (show (runFull twoEnts 10001).map (fun f => f.alive) = .error .attrNone by decide)

/-- Witness for C3 (amended) on the worked scenario: both endpoints survive
the full reduction. -/
theorem C3_endpoints_witness :
    ∃ c0 f, initCfg scenarioEnts = .ok c0 ∧
      runN scenarioEnts (1/50) (fuelBound 5) c0 = .ok f ∧
      (0 : Fin 5) ∈ f.alive ∧ (4 : Fin 5) ∈ f.alive := by
  obtain ⟨f, hrun, _⟩ := exists_ok_of_map
    (show (runFull scenarioEnts (1/50)).map (fun c => c.cur) = .ok none by decide)
  unfold runFull at hrun
  split at hrun
  · exact absurd hrun (by simp)
  next c0 h0 =>
    exact ⟨c0, f, h0, hrun,
      C3_endpoints scenarioEnts (1/50) (fuelBound 5) h0 hrun 0 (Or.inl rfl),
      C3_endpoints scenarioEnts (1/50) (fuelBound 5) h0 hrun 4 (Or.inr rfl)⟩

theorem keep_all {n : Nat} {ents : Fin n → MapEntryData} {tol : ℚ} :
    ∀ (k : Nat) {cfg : Cfg n}, (∀ i, tol ≤ cfg.err i) →
      ∃ f, runN ents tol k cfg = .ok f ∧ f.alive = cfg.alive ∧ f.err = cfg.err := by
  intro k
  induction k with
  | zero =>
    intro cfg hge
    exact ⟨cfg, rfl, rfl, rfl⟩
  | succ k ih =>
    intro cfg hge
    unfold runN
    cases hc : cfg.cur with
    | none =>
      dsimp only
      exact ⟨cfg, rfl, rfl, rfl⟩
    | some c =>
      dsimp only
      have hstep : stepOnce ents tol cfg c =
          .ok { cfg with cur := nextAlive cfg.alive c } := by
        simp only [stepOnce]
        rw [if_pos (hge c)]
      rw [hstep]
      dsimp only
      obtain ⟨f, hf, ha, he⟩ := @ih { cfg with cur := nextAlive cfg.alive c } hge
      exact ⟨f, hf, ha, he⟩

/-- Claim C5 (amended): the reducer is a no-op (hence trivially idempotent)
on inputs whose every initial reconstruction error is at least the
tolerance; in general a second pass over the output can delete further
entries, so reduction is not idempotent. -/
theorem C5_no_deletion {n : Nat} (ents : Fin n → MapEntryData) (tol : ℚ)
    {c0 : Cfg n} (h0 : initCfg ents = .ok c0) (hge : ∀ i, tol ≤ c0.err i) :
    ∃ f, runFull ents tol = .ok f ∧ f.alive = List.finRange n := by
  obtain ⟨f, hf, ha, _⟩ := keep_all (fuelBound n) hge
  refine ⟨f, ?_, ?_⟩
  · unfold runFull
    rw [h0]
    exact hf
  · rw [ha]
    unfold initCfg at h0
    exact (initPass_ok (List.nodup_finRange n) h0).1

/-- Witness for C5 (amended): on the two-row input every stored error is the
10000 sentinel, which is at least the tolerance `1/100`, so the reduction
keeps both rows. -/
theorem C5_no_deletion_witness :
    ∃ f, runFull twoEnts (1/100) = .ok f ∧ f.alive = List.finRange 2 := by
  have h0 : initCfg twoEnts = .ok (startCfg 2) := rfl
  exact C5_no_deletion twoEnts (1/100) h0 (by decide)

/-- Claim C7: for a strictly increasing input, after any completed prefix of
the run, an entry `d` is recorded in `e.rightDel` exactly when `d` has been
deleted and lies strictly between `e` and `e`'s current right neighbor in
physical position; moreover `rightDel` sets only ever grow as the run
continues. -/
theorem C7_rightDel_exact {n : Nat} (ents : Fin n → MapEntryData) (tol : ℚ)
    (hmono : PhysSorted ents) (k : Nat) {c0 f : Cfg n}
    (h0 : initCfg ents = .ok c0) (hrun : runN ents tol k c0 = .ok f) :
    (∀ e ∈ f.alive, ∀ d : Fin n,
      d ∈ f.rightDel e ↔ (d ∉ f.alive ∧ (ents e).physPos < (ents d).physPos ∧
        ∀ r, nextAlive f.alive e = some r → (ents d).physPos < (ents r).physPos)) ∧
    (∀ (m : Nat) (f' : Cfg n), runN ents tol m f = .ok f' →
      ∀ i, ∀ d ∈ f.rightDel i, d ∈ f'.rightDel i) := by
  have hInv := runN_inv k (initCfg_inv tol h0) hrun
  constructor
  · intro e heA d
    constructor
    · intro hd
      obtain ⟨hdd, hed, hupper⟩ := hInv.rd_sub e heA d hd
      exact ⟨hdd, hmono e d hed, fun r hr => hmono d r (hupper r hr)⟩
    · rintro ⟨hdd, hed, hupper⟩
      have hed' : e < d := lt_of_physPos_lt hmono hed
      obtain ⟨e', he'A, hde'⟩ := hInv.rd_full d hdd
      obtain ⟨_, he'd, hupper'⟩ := hInv.rd_sub e' he'A d hde'
      have hne : e.val ≠ n - 1 := by
        have hdn := d.isLt
        rw [Fin.lt_def] at hed'
        omega
      obtain ⟨r, hr⟩ := nextAlive_isSome_of_ne_last heA hInv.last_mem hne
      have hdr : d < r := lt_of_physPos_lt hmono (hupper r hr)
      have hne' : e'.val ≠ n - 1 := by
        have hdn := d.isLt
        rw [Fin.lt_def] at he'd
        omega
      obtain ⟨r', hr'⟩ := nextAlive_isSome_of_ne_last he'A hInv.last_mem hne'
      have hdr' : d < r' := hupper' r' hr'
      have hee : e' = e := by
        rcases lt_trichotomy e' e with h | h | h
        · exfalso
          rw [nextAlive_some_iff hInv.sorted] at hr'
          have hmin := hr'.2.2 e heA h
          rw [Fin.lt_def] at hed' hdr'
          rw [Fin.le_def] at hmin
          omega
        · exact h
        · exfalso
          rw [nextAlive_some_iff hInv.sorted] at hr
          have hmin := hr.2.2 e' he'A h
          rw [Fin.lt_def] at he'd hdr
          rw [Fin.le_def] at hmin
          omega
      rw [← hee]
      exact hde'
  · intro m f' hrun' i d hd
    exact runN_rd_mono m hrun' i d hd

/-- Witness for C7 on the worked scenario: in the final state the membership
of the deleted entry 1 in `rightDel 0` is characterized exactly by the
physical-position criterion. -/
theorem C7_rightDel_exact_witness :
    ∃ c0 f, initCfg scenarioEnts = .ok c0 ∧
      runN scenarioEnts (1/50) (fuelBound 5) c0 = .ok f ∧
      ((1 : Fin 5) ∈ f.rightDel 0 ↔
        ((1 : Fin 5) ∉ f.alive ∧
          (scenarioEnts 0).physPos < (scenarioEnts 1).physPos ∧
          ∀ r, nextAlive f.alive 0 = some r →
            (scenarioEnts 1).physPos < (scenarioEnts r).physPos)) := by
  obtain ⟨f, hrun, _⟩ := exists_ok_of_map
    (show (runFull scenarioEnts (1/50)).map (fun c => c.rightDel 0) =
      .ok [(1 : Fin 5), 3, 2] by decide)
  unfold runFull at hrun
  split at hrun
  · exact absurd hrun (by simp)
  next c0 h0 =>
    have hInv := runN_inv (fuelBound 5) (initCfg_inv (1/50) h0) hrun
    have hmem : (0 : Fin 5) ∈ f.alive := hInv.first_mem 0 rfl
    exact ⟨c0, f, h0, hrun,
      (C7_rightDel_exact scenarioEnts (1/50) (by unfold PhysSorted; decide)
        (fuelBound 5) h0 hrun).1 0 hmem 1⟩

/-- Claim C8 (amended): for a strictly increasing input in a uniform
interpolation mode and a tolerance at most the 10000 sentinel, the
reduction always terminates normally: it returns a final state with the
cursor exhausted, within the static fuel bound. -/
theorem C8_terminates {n : Nat} (ents : Fin n → MapEntryData) (tol : ℚ)
    (hmono : PhysSorted ents) (hmode : UniformMode ents) (htol : tol ≤ 10000) :
    ∃ f, runFull ents tol = .ok f ∧ f.cur = none := by
  obtain ⟨c0, h0⟩ := initPass_isOk hmono hmode (List.finRange n) (startCfg n)
  have h0' : initCfg ents = .ok c0 := h0
  have hInv := initCfg_inv tol h0'
  have halive : c0.alive = List.finRange n := (initPass_ok (List.nodup_finRange n) h0).1
  obtain ⟨f, hf, hcur⟩ :=
    runN_completes hmono hmode htol (fuelBound n) hInv (mu_init_lt halive)
  refine ⟨f, ?_, hcur⟩
  unfold runFull
  rw [h0']
  exact hf

/-- Claim C8, counterexample to unconditional termination-with-output: a
tolerance above the sentinel crashes on the head's missing neighbor, and a
non-monotone physical column crashes with a division by zero. -/
theorem C8_counterexample :
    runFull twoEnts 10001 = .error .attrNone ∧
    runFull unsortedEnts (1/100) = .error .zeroDiv :=
  ⟨error_of_map_error
      (show (runFull twoEnts 10001).map (fun f => f.alive) = .error .attrNone by decide),
    error_of_map_error
      (show (runFull unsortedEnts (1/100)).map (fun f => f.alive) = .error .zeroDiv by decide)⟩

/-- Witness for C8 (amended) on the worked scenario. -/
theorem C8_terminates_witness :
    ∃ f, runFull scenarioEnts (1/50) = .ok f ∧ f.cur = none :=
  C8_terminates scenarioEnts (1/50) (by unfold PhysSorted; decide)
    (Or.inl (by decide)) (by decide)

/-- Claim C10: the 10000 error sentinel is an unreachable-tolerance marker
only for tolerances at most 10000: below that bound no run ever aborts by
dereferencing a missing neighbor, while any tolerance above 10000 makes
every two-row input crash exactly that way on its first entry. -/
theorem C10_sentinel (tol : ℚ) :
    (tol ≤ 10000 → ∀ {n : Nat} (ents : Fin n → MapEntryData),
      runFull ents tol ≠ .error .attrNone) ∧
    (10000 < tol → ∀ ents : Fin 2 → MapEntryData,
      runFull ents tol = .error .attrNone) := by
  constructor
  · intro htol n ents
    unfold runFull
    cases h0 : initCfg ents with
    | error cr =>
      dsimp only
      intro hcontra
      rw [Except.error.injEq] at hcontra
      exact initPass_ne_attrNone (List.finRange n) (startCfg n) (hcontra ▸ h0)
    | ok c0 =>
      dsimp only
      exact runN_ne_attrNone htol (fuelBound n) (initCfg_inv tol h0)
  · intro htol ents
    have h0 : initCfg ents = .ok (startCfg 2) := rfl
    unfold runFull
    rw [h0]
    show runN ents tol (fuelBound 2) (startCfg 2) = .error .attrNone
    have hcur : (startCfg 2).cur = some 0 := rfl
    have hstep : stepOnce ents tol (startCfg 2) 0 = .error .attrNone := by
      have hn : ¬ tol ≤ (startCfg 2).err 0 := not_le.mpr htol
      simp only [stepOnce]
      rw [if_neg hn]
      rfl
    have h10 : fuelBound 2 = 9 + 1 := rfl
    rw [h10, runN_succ_cur hcur, hstep]

/-- Witness for C10: in-bounds tolerance `1/100` never yields the
missing-neighbor crash, while tolerance 20000 crashes the two-row input. -/
theorem C10_sentinel_witness :
    runFull scenarioEnts (1/100) ≠ .error .attrNone ∧
    runFull twoEnts 20000 = .error .attrNone := by
  exact ⟨(C10_sentinel (1/100)).1 (by decide) scenarioEnts,
    (C10_sentinel 20000).2 (by decide) twoEnts⟩

end MinMap
